import Mathlib

/-!
Shallow embedding of the topic-relationship-graph and anomaly-detection core of
the `document-topic-mapping` repository: the graph store built on a directed
graph with at most one edge per ordered node pair (`networkx.DiGraph` in the
source, `src/src/utils/graph_builder.py`), the relationship builder
(`GraphBuilder.build_from_topics`), and the five anomaly detectors of
`src/src/agents/validator.py`.

Python machine details are embedded explicitly:
* a `networkx.DiGraph` keeps one attribute record per ordered pair
  `(source, target)`; `add_edge` inserts the missing endpoints as nodes and
  replaces the attribute record when the pair is already present;
* Python truthiness of `topic.parent` (both `None` and `""` are falsy);
* `str.isdigit` / `int(...)` on the trailing dot-separated segment;
* `list.sort()` on `(int, str)` pairs (stable ascending lexicographic order);
* float division in `get_statistics` is modelled over `ℚ`, with division by
  zero made explicit as an `Option` (a Python `ZeroDivisionError`);
* `nx.simple_cycles` is an external library routine; it is modelled by its
  documented semantics (every simple cycle of the digraph, each reported
  exactly once, as a list of distinct nodes in cycle order).
-/

/-- Python `id.split('.')` with the one-character separator `'.'`, spelled out
over the character list (`"".split('.') = [""]`, `"a.".split('.') = ["a",""]`).
-/
def splitOnDot : List Char → List (List Char)
  | [] => [[]]
  | c :: cs =>
    if c = '.' then [] :: splitOnDot cs
    else
      match splitOnDot cs with
      | [] => [[c]]
      | seg :: rest => (c :: seg) :: rest

/-- `id.split('.')` as a list of strings. -/
def pySplitDot (s : String) : List String :=
  (splitOnDot s.data).map String.mk

/-- `str.isdigit` (over the ASCII digits a topic id can carry): nonempty and
all characters are digits. -/
def isPyDigit (s : String) : Bool :=
  !s.data.isEmpty && s.data.all Char.isDigit

/-- `int(...)` on an all-digit string: base-10 value of the digit list. -/
def digitsToNat (l : List Char) : Nat :=
  l.foldl (fun n c => n * 10 + (c.toNat - 48)) 0

/-- Strict lexicographic order on character lists by code point — the order
Python applies to `str` when sorting `(int, str)` pairs. -/
def charListLt : List Char → List Char → Bool
  | [], [] => false
  | [], _ :: _ => true
  | _ :: _, [] => false
  | a :: as, b :: bs => a.toNat < b.toNat || (a.toNat == b.toNat && charListLt as bs)

/-- Strict lexicographic order on strings. -/
def strLt (a b : String) : Bool :=
  charListLt a.data b.data

/-- All ways of inserting `x` into one position of the list. -/
def insertEverywhere (x : α) : List α → List (List α)
  | [] => [[x]]
  | y :: ys => (x :: y :: ys) :: (insertEverywhere x ys).map (y :: ·)

/-- All permutations of a list (each permutation of a duplicate-free list
exactly once). -/
def perms : List α → List (List α)
  | [] => [[]]
  | x :: xs => (perms xs).flatMap (insertEverywhere x)

/-- Node attribute record stored by `GraphBuilder.add_topic`
(`title=..., content=..., confidence=...`). -/
structure NodeAttrs where
  title : String
  content : String
  confidence : ℚ
deriving Repr, DecidableEq

/-- An edge of the directed graph together with its attribute record, as set
by `GraphBuilder.add_relationship`
(`type=..., status=..., context=..., severity=...`). -/
structure Edge where
  source : String
  target : String
  type : String
  status : String
  context : Option String
  severity : Option String
deriving Repr, DecidableEq

/-- The `networkx.DiGraph` owned by `GraphBuilder`: nodes in insertion order
(no duplicates are ever created), node attribute records for nodes added via
`add_node` with attributes, and at most one edge record per ordered pair. -/
structure DiGraph where
  nodes : List String
  nodeAttrs : List (String × NodeAttrs)
  edges : List Edge
deriving Repr, DecidableEq

/-- `nx.DiGraph()` — the empty graph (`GraphBuilder.__init__`). -/
def DiGraph.empty : DiGraph := ⟨[], [], []⟩

/-- Pydantic model `Topic` (src/src/models/topic.py).  The document `position`
span and the pydantic bounds on `confidence` play no role in the graph core and
are irrelevant to every claim; `confidence` (a Python float in [0,1]) is
modelled as a rational. -/
structure Topic where
  id : String
  title : String := ""
  content : String := ""
  parent : Option String := none
  children : List String := []
  cross_references : List String := []
  forward_references : List String := []
  backward_references : List String := []
  confidence : ℚ := 95/100
deriving Repr, DecidableEq

/-- Pydantic model `Relationship` (src/src/models/relationship.py); the
`Literal` tag sets are kept as strings. -/
structure Relationship where
  source : String
  target : String
  type : String
  status : String := "valid"
  context : Option String := none
  severity : Option String := none
deriving Repr, DecidableEq

/-- Pydantic model `Anomaly` (src/src/models/anomaly.py). -/
structure Anomaly where
  type : String
  location : String
  severity : String
  description : String
  resolution_strategies : List String := []
  affected_topics : List String := []
deriving Repr, DecidableEq

namespace DiGraph

/-- `nx.DiGraph.add_edge`'s implicit node insertion: a missing endpoint is
added as a node with an empty attribute record. -/
def add_node_plain (g : DiGraph) (id : String) : DiGraph :=
  if id ∈ g.nodes then g else { g with nodes := g.nodes ++ [id] }

/-- `GraphBuilder.add_topic`: `self.graph.add_node(topic.id, title=...,
content=..., confidence=...)`.  Re-adding an existing id updates its attribute
record and creates no duplicate node. -/
def add_topic (g : DiGraph) (t : Topic) : DiGraph :=
  let a : NodeAttrs := ⟨t.title, t.content, t.confidence⟩
  { nodes := if t.id ∈ g.nodes then g.nodes else g.nodes ++ [t.id]
    nodeAttrs :=
      if g.nodeAttrs.any (fun p => p.1 == t.id) then
        g.nodeAttrs.map (fun p => if p.1 == t.id then (t.id, a) else p)
      else g.nodeAttrs ++ [(t.id, a)]
    edges := g.edges }

/-- Whether the graph already holds an edge record for the ordered pair. -/
def hasEdge (g : DiGraph) (s t : String) : Bool :=
  g.edges.any (fun e => e.source == s && e.target == t)

/-- `nx.DiGraph.add_edge(source, target, **attrs)`: inserts missing endpoints
as plain nodes; if the ordered pair is already present, its attribute record is
replaced (|`GraphBuilder.add_relationship` always passes the full attribute
set), otherwise a fresh edge record is appended. -/
def add_edge (g : DiGraph) (e : Edge) : DiGraph :=
  let g1 := (g.add_node_plain e.source).add_node_plain e.target
  if g1.hasEdge e.source e.target then
    { g1 with edges :=
        g1.edges.map (fun e' =>
          if e'.source == e.source && e'.target == e.target then e else e') }
  else
    { g1 with edges := g1.edges ++ [e] }

/-- `GraphBuilder.add_relationship`: `self.graph.add_edge(rel.source,
rel.target, type=..., status=..., context=..., severity=...)`. -/
def add_relationship (g : DiGraph) (r : Relationship) : DiGraph :=
  g.add_edge ⟨r.source, r.target, r.type, r.status, r.context, r.severity⟩

/-- Edges the builder derives from a single topic, in the order
`GraphBuilder.build_from_topics` performs the additions: the `hierarchical`
edge from the `parent` field (guarded by Python truthiness: `if topic.parent:`
skips both `None` and `""`), then one edge per entry of `cross_references`,
`forward_references` and `backward_references`. -/
def process_topic (g : DiGraph) (t : Topic) : DiGraph :=
  let g :=
    match t.parent with
    | some p => if p = "" then g else
        g.add_relationship ⟨p, t.id, "hierarchical", "valid", none, none⟩
    | none => g
  let g := t.cross_references.foldl
    (fun g r => g.add_relationship ⟨t.id, r, "cross_reference", "valid", none, none⟩) g
  let g := t.forward_references.foldl
    (fun g r => g.add_relationship ⟨t.id, r, "forward_reference", "valid", none, none⟩) g
  t.backward_references.foldl
    (fun g r => g.add_relationship ⟨t.id, r, "backward_reference", "valid", none, none⟩) g

/-- `GraphBuilder.build_from_topics`: first one node per topic, then the
relationship edges of each topic in list order. -/
def build_from_topics (topics : List Topic) : DiGraph :=
  topics.foldl process_topic (topics.foldl add_topic DiGraph.empty)

/-- `nx.DiGraph.in_degree(n)`: number of edges (of any type) whose target is
`n`. -/
def in_degree (g : DiGraph) (n : String) : Nat :=
  (g.edges.filter (fun e => e.target == n)).length

/-- `nx.DiGraph.out_degree(n)`: number of edges whose source is `n`. -/
def out_degree (g : DiGraph) (n : String) : Nat :=
  (g.edges.filter (fun e => e.source == n)).length

/-- `GraphBuilder.get_orphan_nodes`: nodes with no incoming and no outgoing
edges, in node order. -/
def get_orphan_nodes (g : DiGraph) : List String :=
  g.nodes.filter (fun n => g.in_degree n == 0 && g.out_degree n == 0)

/-- The consecutive pairs of a node list read cyclically: for `[a, b, c]` the
pairs `(a,b), (b,c), (c,a)`. -/
def wrapPairs (c : List String) : List (String × String) :=
  c.zip (c.rotate 1)

/-- Whether the list is a closed walk of the graph: nonempty, and every
consecutive pair (wrapping around) is an edge of some type. -/
def isCycleList (g : DiGraph) (c : List String) : Bool :=
  !c.isEmpty && (wrapPairs c).all (fun p => g.hasEdge p.1 p.2)

/-- Whether the head of the list is strictly smaller than every other entry:
the canonical rotation of a duplicate-free cycle. -/
def headMin : List String → Bool
  | [] => false
  | x :: xs => xs.all (fun y => strLt x y)

/-- All duplicate-free lists over the node set, each exactly once. -/
def distinctLists (l : List String) : List (List String) :=
  (l.sublists.flatMap perms).dedup

/-- Model of the external `nx.simple_cycles(self.graph)` used by
`GraphBuilder.detect_circular_references`, by its documented semantics: every
simple cycle of the digraph — a nonempty sequence of distinct nodes, each with
an edge to the next and the last closing back to the first — reported exactly
once, here in its rotation starting at the least node id. -/
def simple_cycles (g : DiGraph) : List (List String) :=
  (distinctLists g.nodes).filter (fun c => g.isCycleList c && headMin c)

/-- `GraphBuilder.detect_circular_references` returns `list(nx.simple_cycles(
self.graph))` (the exception branch only guards the external call). -/
def detect_circular_references (g : DiGraph) : List (List String) :=
  g.simple_cycles

/-- `sum(dict(self.graph.degree()).values())`: total degree over all nodes. -/
def sum_degrees (g : DiGraph) : Nat :=
  (g.nodes.map (fun n => g.in_degree n + g.out_degree n)).sum

end DiGraph

/-- `GraphBuilder.get_statistics` result record. -/
structure Statistics where
  total_nodes : Nat
  total_edges : Nat
  orphan_nodes : Nat
  circular_references : Nat
  average_degree : ℚ
deriving Repr, DecidableEq

/-- Python division (`/`) over exact numbers: division by zero raises
`ZeroDivisionError`, modelled as `none`. -/
def pyDiv (a b : ℚ) : Option ℚ :=
  if b = 0 then none else some (a / b)

/-- `GraphBuilder.get_statistics`: node/edge/orphan/cycle counts and
`average_degree = sum(degrees) / max(number_of_nodes, 1)`. -/
def DiGraph.get_statistics (g : DiGraph) : Option Statistics :=
  (pyDiv (g.sum_degrees : ℚ) ((max g.nodes.length 1 : Nat) : ℚ)).map (fun avg =>
    ⟨g.nodes.length, g.edges.length, g.get_orphan_nodes.length,
      g.simple_cycles.length, avg⟩)

namespace Validator

/-- The `"root"` group key: `parent = topic.parent or "root"` — Python `or`
replaces both `None` and the empty string by `"root"`. -/
def parentKey (t : Topic) : String :=
  match t.parent with
  | some p => if p = "" then "root" else p
  | none => "root"

/-- Keys of the Python group dict, in first-occurrence order. -/
def groupParents (topics : List Topic) : List String :=
  topics.foldl (fun ks t => if parentKey t ∈ ks then ks else ks ++ [parentKey t]) []

/-- The ids collected for one parent group, in topic-list order. -/
def groupChildren (topics : List Topic) (p : String) : List String :=
  (topics.filter (fun t => parentKey t == p)).map Topic.id

/-- The trailing dot-separated segment of an id (`id.split('.')[-1]`;
`str.split` never returns an empty list). -/
def lastSegment (id : String) : String :=
  (pySplitDot id).getLastD ""

/-- `(int(parts[-1]), child_id)` for the ids whose trailing segment is
numeric, in group order; the `try/except` of the source cannot fire once
`isdigit` holds. -/
def numericChildren (children : List String) : List (Nat × String) :=
  children.filterMap (fun cid =>
    if isPyDigit (lastSegment cid) then
      some (digitsToNat (lastSegment cid).data, cid)
    else none)

/-- The `(int, str)` pair order of Python `list.sort()`: by number, ties by
id string. -/
def pairLe (a b : Nat × String) : Bool :=
  a.1 < b.1 || (a.1 == b.1 && !strLt b.2 a.2)

/-- Stable insertion into a `pairLe`-sorted list. -/
def insertPair (x : Nat × String) : List (Nat × String) → List (Nat × String)
  | [] => [x]
  | y :: ys => if pairLe y x then y :: insertPair x ys else x :: y :: ys

/-- `numeric_children.sort()`: the ascending stable sort (the sorted
permutation is unique because `pairLe` is a total antisymmetric order on the
pairs). -/
def sortPairs : List (Nat × String) → List (Nat × String)
  | [] => []
  | x :: xs => insertPair x (sortPairs xs)

/-- `ValidatorAgent._construct_missing_id`: copy of the reference id with the
trailing segment replaced by the missing number. -/
def construct_missing_id (reference_id : String) (missing_num : Nat) : String :=
  String.intercalate "." ((pySplitDot reference_id).dropLast ++ [toString missing_num])

/-- One `numbering_gap` anomaly for one missing integer of one adjacent pair
(`ValidatorAgent._check_numbering_gaps`, anomaly construction). -/
def mkGapAnomaly (current_id next_id : String) (missing_num : Nat) : Anomaly :=
  { type := "numbering_gap"
    location := "Between " ++ current_id ++ " and " ++ next_id
    severity := "high"
    description :=
      "Missing topic " ++ construct_missing_id current_id missing_num ++ " in sequence"
    affected_topics := [current_id, next_id] }

/-- The inner loop of `_check_numbering_gaps` over the sorted numeric
children: for each adjacent pair whose difference exceeds 1, one anomaly per
integer of `range(current + 1, next)`. -/
def gapsOfSorted : List (Nat × String) → List Anomaly
  | [] => []
  | [_] => []
  | (n₁, i₁) :: (n₂, i₂) :: rest =>
    (if n₁ + 1 < n₂ then
      (List.range' (n₁ + 1) (n₂ - n₁ - 1)).map (mkGapAnomaly i₁ i₂)
    else []) ++ gapsOfSorted ((n₂, i₂) :: rest)

/-- `ValidatorAgent._check_numbering_gaps`. -/
def check_numbering_gaps (topics : List Topic) : List Anomaly :=
  (groupParents topics).flatMap (fun p =>
    gapsOfSorted (sortPairs (numericChildren (groupChildren topics p))))

/-- One `broken_cross_reference` anomaly
(`ValidatorAgent._validate_cross_references`, anomaly construction). -/
def mkBrokenAnomaly (source ref : String) : Anomaly :=
  { type := "broken_cross_reference"
    location := source ++ " → " ++ ref
    severity := "high"
    description := "Topic " ++ source ++ " references " ++ ref ++ ", which does not exist"
    affected_topics := [source] }

/-- The anomalies one topic contributes in `_validate_cross_references`: one
per entry of the concatenation of its three reference lists that is not a
known topic id. -/
def brokenFor (topic_ids : List String) (t : Topic) : List Anomaly :=
  (t.cross_references ++ t.forward_references ++ t.backward_references).filterMap
    (fun r => if r ∈ topic_ids then none else some (mkBrokenAnomaly t.id r))

/-- `ValidatorAgent._validate_cross_references` (the Python id set is only
used for membership). -/
def validate_cross_references (topics : List Topic) : List Anomaly :=
  topics.flatMap (brokenFor (topics.map Topic.id))

/-- One `circular_reference` anomaly for one cycle
(`ValidatorAgent._detect_circular_references`, anomaly construction):
`location = " → ".join(cycle + [cycle[0]])`. -/
def mkCycleAnomaly (cycle : List String) : Anomaly :=
  { type := "circular_reference"
    location := String.intercalate " → " (cycle ++ [cycle.headD ""])
    severity := "medium"
    description :=
      "Circular reference detected involving " ++ toString cycle.length ++ " topics"
    affected_topics := cycle }

/-- `ValidatorAgent._detect_circular_references`. -/
def detect_circular_references (g : DiGraph) : List Anomaly :=
  g.detect_circular_references.map mkCycleAnomaly

/-- One `orphan_content` anomaly (`ValidatorAgent._find_orphan_content`,
anomaly construction). -/
def mkOrphanAnomaly (orphan_id : String) : Anomaly :=
  { type := "orphan_content"
    location := orphan_id
    severity := "low"
    description := "Topic " ++ orphan_id ++ " has no connections to other topics"
    affected_topics := [orphan_id] }

/-- `ValidatorAgent._find_orphan_content`. -/
def find_orphan_content (g : DiGraph) : List Anomaly :=
  g.get_orphan_nodes.map mkOrphanAnomaly

/-- One `duplicate_topic` anomaly (`ValidatorAgent._check_duplicates`,
anomaly construction). -/
def mkDuplicateAnomaly (id : String) : Anomaly :=
  { type := "duplicate_topic"
    location := id
    severity := "critical"
    description := "Duplicate topic ID: " ++ id
    affected_topics := [id] }

/-- The walk of `_check_duplicates` with its `seen_ids` accumulator (the
Python dict value is never read, only key membership). -/
def checkDuplicatesAux : List Topic → List String → List Anomaly
  | [], _ => []
  | t :: ts, seen =>
    if t.id ∈ seen then mkDuplicateAnomaly t.id :: checkDuplicatesAux ts seen
    else checkDuplicatesAux ts (seen ++ [t.id])

/-- `ValidatorAgent._check_duplicates`. -/
def check_duplicates (topics : List Topic) : List Anomaly :=
  checkDuplicatesAux topics []

/-- `ValidatorAgent._generate_resolution_strategies`: attaches LLM-produced
strategies to each `high`/`critical` anomaly, touching no other field.  The
LLM collaborator is external; it enters as the function `strat`. -/
def generate_resolution_strategies (strat : Anomaly → List String)
    (anomalies : List Anomaly) : List Anomaly :=
  anomalies.map (fun a =>
    if a.severity == "high" || a.severity == "critical" then
      { a with resolution_strategies := strat a }
    else a)

/-- `ValidatorAgent.validate`: the concatenation of the five detector outputs
in source order — numbering gaps, broken references, cycles, orphans,
duplicates — then resolution strategies attached in place. -/
def validate (topics : List Topic) (g : DiGraph) (strat : Anomaly → List String) :
    List Anomaly :=
  generate_resolution_strategies strat
    (check_numbering_gaps topics ++ validate_cross_references topics ++
      detect_circular_references g ++ find_orphan_content g ++
      check_duplicates topics)

end Validator

/-! ### Derived predicates -/

/-- The `nx.DiGraph` representation invariant: at most one edge record per
ordered pair of node ids. -/
def DiGraph.PairUnique (g : DiGraph) : Prop :=
  (g.edges.map (fun e => (e.source, e.target))).Nodup

instance (g : DiGraph) : Decidable g.PairUnique := by
  unfold DiGraph.PairUnique
  infer_instance

/-- Every edge endpoint is a node (maintained by `nx.DiGraph.add_edge`'s
automatic node insertion). -/
def DiGraph.EdgesClosed (g : DiGraph) : Prop :=
  ∀ e ∈ g.edges, e.source ∈ g.nodes ∧ e.target ∈ g.nodes

instance (g : DiGraph) : Decidable g.EdgesClosed := by
  unfold DiGraph.EdgesClosed
  infer_instance

/-- A simple cycle of the digraph in the sense of `nx.simple_cycles`: a
nonempty list of distinct nodes in which every consecutive pair, the last
wrapping to the first, is connected by an edge of any type. -/
def DiGraph.IsSimpleCycle (g : DiGraph) (c : List String) : Prop :=
  c.Nodup ∧ g.isCycleList c = true

/-- The number of missing integers over the adjacent pairs of a sorted
`(number, id)` list: `Σ (next - current - 1)` over consecutive entries. -/
def missingCount : List (Nat × String) → Nat
  | [] => 0
  | [_] => 0
  | (n₁, _) :: (n₂, i₂) :: rest => (n₂ - n₁ - 1) + missingCount ((n₂, i₂) :: rest)

/-! ### Concrete instances used by counterexamples and witnesses -/

/-- A cross-reference relationship `A → B`. -/
def relAB1 : Relationship := ⟨"A", "B", "cross_reference", "valid", none, none⟩

/-- A forward-reference relationship on the same ordered pair `A → B`. -/
def relAB2 : Relationship := ⟨"A", "B", "forward_reference", "valid", none, none⟩

/-- A graph holding the single (attributed) node `A`. -/
def graphA : DiGraph := DiGraph.empty.add_topic { id := "A" }

/-- Three topics forming the reference cycle `A → B → C → A`. -/
def triTopics : List Topic :=
  [{ id := "A", cross_references := ["B"] },
   { id := "B", cross_references := ["C"] },
   { id := "C", cross_references := ["A"] }]

/-- The graph built from `triTopics`; its only simple cycle is `A → B → C →
A`. -/
def triGraph : DiGraph := DiGraph.build_from_topics triTopics

/-- Sibling topics numbered 1, 2 and 5 under the same parent. -/
def gapTopics : List Topic :=
  [{ id := "a.1", parent := some "a" },
   { id := "a.2", parent := some "a" },
   { id := "a.5", parent := some "a" }]

/-- A single topic referencing the non-existent id `"99.9"`. -/
def brokenTopic : Topic := { id := "1", cross_references := ["99.9"] }

/-- A topic carrying the same missing id `"9"` in two of its reference
lists. -/
def dupRefTopic : Topic :=
  { id := "1", cross_references := ["9"], forward_references := ["9"] }

/-- A topic list containing the id `"7"` exactly twice. -/
def dupTopics : List Topic := [{ id := "7" }, { id := "7" }]

/-- A child whose `parent` field names `P`, followed by the topic `P` whose
cross-references also name the child: the second edge addition hits the same
ordered pair `(P, c)`. -/
def overwriteTopics : List Topic :=
  [{ id := "c", parent := some "P" },
   { id := "P", cross_references := ["c"] }]

/-- A duplicated id together with a numbering gap: both the duplicate and the
gap detectors fire, exposing the concatenation order of `validate`. -/
def orderTopics : List Topic := [{ id := "1" }, { id := "1" }, { id := "3" }]

/-- A single topic with no parent, no children and empty reference lists. -/
def isolatedTopics : List Topic := [{ id := "1" }]

/-! ## Basic facts about the graph store operations -/

theorem edges_add_node_plain (g : DiGraph) (id : String) :
    (g.add_node_plain id).edges = g.edges := by
  unfold DiGraph.add_node_plain
  split <;> rfl

theorem nodeAttrs_add_node_plain (g : DiGraph) (id : String) :
    (g.add_node_plain id).nodeAttrs = g.nodeAttrs := by
  unfold DiGraph.add_node_plain
  split <;> rfl

theorem mem_nodes_add_node_plain (g : DiGraph) (id n : String) :
    n ∈ (g.add_node_plain id).nodes ↔ n ∈ g.nodes ∨ n = id := by
  unfold DiGraph.add_node_plain
  split
  · rename_i h
    constructor
    · exact Or.inl
    · rintro (hn | rfl)
      · exact hn
      · exact h
  · simp [or_comm]

theorem nodeAttrs_add_edge (g : DiGraph) (e : Edge) :
    (g.add_edge e).nodeAttrs = g.nodeAttrs := by
  simp only [DiGraph.add_edge]
  split <;> simp [nodeAttrs_add_node_plain]

theorem mem_nodes_add_edge (g : DiGraph) (e : Edge) (n : String) :
    n ∈ (g.add_edge e).nodes ↔ n ∈ g.nodes ∨ n = e.source ∨ n = e.target := by
  simp only [DiGraph.add_edge]
  split <;>
    simp [mem_nodes_add_node_plain, or_assoc]

theorem mem_add_edge_self (g : DiGraph) (e : Edge) :
    e ∈ (g.add_edge e).edges := by
  simp only [DiGraph.add_edge]
  split
  · rename_i h
    rw [DiGraph.hasEdge] at h
    rw [edges_add_node_plain, edges_add_node_plain] at h ⊢
    rw [List.any_eq_true] at h
    obtain ⟨e', he', hmatch⟩ := h
    simp only [List.mem_map]
    exact ⟨e', he', by simp [hmatch]⟩
  · simp [edges_add_node_plain]

/-- Every edge record of `add_edge g e` is either an old record (whose ordered
pair differs from `e`'s, if the pair was already present) or `e` itself. -/
theorem mem_add_edge_elim {g : DiGraph} {e e' : Edge}
    (h : e' ∈ (g.add_edge e).edges) : e' ∈ g.edges ∨ e' = e := by
  simp only [DiGraph.add_edge] at h
  split at h <;> rw [edges_add_node_plain, edges_add_node_plain] at h
  · simp only [List.mem_map] at h
    obtain ⟨a, ha, rfl⟩ := h
    split
    · exact Or.inr rfl
    · exact Or.inl ha
  · rcases List.mem_append.mp h with h | h
    · exact Or.inl h
    · simp only [List.mem_singleton] at h
      exact Or.inr h

/-- An edge whose ordered pair differs from the added edge's pair survives
`add_edge` untouched. -/
theorem mem_add_edge_of_ne {g : DiGraph} {e e' : Edge} (he' : e' ∈ g.edges)
    (hne : e'.source ≠ e.source ∨ e'.target ≠ e.target) :
    e' ∈ (g.add_edge e).edges := by
  simp only [DiGraph.add_edge]
  split <;> rw [edges_add_node_plain, edges_add_node_plain]
  · simp only [List.mem_map]
    refine ⟨e', he', ?_⟩
    have : (e'.source == e.source && e'.target == e.target) = false := by
      rcases hne with h | h <;> simp [h]
    simp [this]
  · exact List.mem_append_left _ he'

/-! ## C1 — `add_relationship` with an unknown target -/

/-- C1 counterexample: starting from a graph whose only node is `A`, adding
the relationship `A → B` (target `B` unknown) changes the node set — the
previously unknown target `B` is present as a node afterwards, contradicting
"the set of nodes is unchanged, and no placeholder node for the unknown target
exists afterward". -/
theorem add_relationship_autoadds_target_cex :
    graphA.nodes = ["A"] ∧
    (graphA.add_relationship relAB1).nodes = ["A", "B"] ∧
    "B" ∉ graphA.nodes ∧ "B" ∈ (graphA.add_relationship relAB1).nodes := by
  refine ⟨by decide, by decide, by decide, by decide⟩

/-- C1 (amended): `add_relationship` always creates the edge, even when the
target is not a known node — but `nx.DiGraph.add_edge` inserts the missing
endpoints as nodes, so the node set afterwards is the old node set together
with the relationship's source and target; the inserted nodes carry no
attribute record (no attributed placeholder is created). -/
theorem add_relationship_tolerates_unknown_target (g : DiGraph) (r : Relationship) :
    (⟨r.source, r.target, r.type, r.status, r.context, r.severity⟩ : Edge) ∈
        (g.add_relationship r).edges ∧
    (∀ n, n ∈ (g.add_relationship r).nodes ↔
        (n ∈ g.nodes ∨ n = r.source ∨ n = r.target)) ∧
    (g.add_relationship r).nodeAttrs = g.nodeAttrs := by
  refine ⟨mem_add_edge_self g _, fun n => ?_, nodeAttrs_add_edge g _⟩
  exact mem_nodes_add_edge g _ n

/-- Witness for C1's amended theorem at the concrete graph `graphA` and
relationship `A → B`. -/
theorem add_relationship_tolerates_unknown_target_witness :
    ((⟨"A", "B", "cross_reference", "valid", none, none⟩ : Edge) ∈
        (graphA.add_relationship relAB1).edges) ∧
    ("B" ∈ (graphA.add_relationship relAB1).nodes ↔
        ("B" ∈ graphA.nodes ∨ "B" = relAB1.source ∨ "B" = relAB1.target)) :=
  ⟨(add_relationship_tolerates_unknown_target graphA relAB1).1,
   (add_relationship_tolerates_unknown_target graphA relAB1).2.1 "B"⟩

/-! ## C3 — one edge record per ordered pair: the second addition overwrites -/

theorem hasEdge_iff (g : DiGraph) (s t : String) :
    g.hasEdge s t = true ↔ ∃ e ∈ g.edges, e.source = s ∧ e.target = t := by
  simp [DiGraph.hasEdge, List.any_eq_true]

theorem filter_map_replace (e : Edge) (l : List Edge) :
    ((l.map (fun e' =>
        if e'.source == e.source && e'.target == e.target then e else e')).filter
      (fun e' => e'.source == e.source && e'.target == e.target))
    = (l.filter (fun e' => e'.source == e.source && e'.target == e.target)).map
        (fun _ => e) := by
  induction l with
  | nil => rfl
  | cons x xs ih =>
    cases hx : (x.source == e.source && x.target == e.target) with
    | true =>
      simp only [List.map_cons, List.filter_cons, hx, if_true, beq_self_eq_true,
        Bool.and_self, ih]
    | false =>
      simp only [List.map_cons, List.filter_cons, hx, Bool.false_eq_true, if_false, ih]

theorem pair_filter_length_le_one {l : List Edge}
    (h : (l.map (fun e => (e.source, e.target))).Nodup) (s t : String) :
    (l.filter (fun e' => e'.source == s && e'.target == t)).length ≤ 1 := by
  induction l with
  | nil => simp
  | cons x xs ih =>
    simp only [List.map_cons, List.nodup_cons] at h
    obtain ⟨hx, hxs⟩ := h
    by_cases hpx : (x.source == s && x.target == t) = true
    · simp only [Bool.and_eq_true, beq_iff_eq] at hpx
      obtain ⟨rfl, rfl⟩ := hpx
      have hempty : xs.filter (fun e' => e'.source == x.source && e'.target == x.target) = [] := by
        rw [List.filter_eq_nil_iff]
        intro a ha hpa
        simp only [Bool.and_eq_true, beq_iff_eq] at hpa
        exact hx (by
          rw [List.mem_map]
          exact ⟨a, ha, by rw [hpa.1, hpa.2]⟩)
      simp [List.filter_cons, hempty]
    · simp only [List.filter_cons, hpx, if_neg, Bool.not_eq_true]
      simpa using ih hxs

theorem hasEdge_add_node_plain (g : DiGraph) (a s t : String) :
    (g.add_node_plain a).hasEdge s t = g.hasEdge s t := by
  unfold DiGraph.hasEdge
  rw [edges_add_node_plain]

theorem pairUnique_add_edge {g : DiGraph} (e : Edge) (hu : g.PairUnique) :
    (g.add_edge e).PairUnique := by
  unfold DiGraph.PairUnique at *
  simp only [DiGraph.add_edge]
  split
  · rename_i h
    rw [hasEdge_add_node_plain, hasEdge_add_node_plain] at h
    dsimp only
    rw [edges_add_node_plain, edges_add_node_plain]
    simp only [List.map_map]
    have : g.edges.map ((fun e => (e.source, e.target)) ∘ (fun e' =>
        if e'.source == e.source && e'.target == e.target then e else e'))
        = g.edges.map (fun e => (e.source, e.target)) := by
      apply List.map_congr_left
      intro a _
      by_cases hpa : (a.source == e.source && a.target == e.target) = true
      · simp only [Bool.and_eq_true, beq_iff_eq] at hpa
        simp [Function.comp, hpa.1, hpa.2]
      · simp [Function.comp, hpa]
    rw [this]
    exact hu
  · rename_i h
    rw [hasEdge_add_node_plain, hasEdge_add_node_plain] at h
    dsimp only
    rw [edges_add_node_plain, edges_add_node_plain]
    rw [List.map_append, List.nodup_append]
    refine ⟨hu, by simp, ?_⟩
    intro p hp
    simp only [List.map_cons, List.map_nil, List.mem_singleton]
    intro hq
    rw [List.mem_map] at hp
    obtain ⟨a, ha, rfl⟩ := hp
    rw [Prod.mk.injEq] at hq
    apply h
    rw [hasEdge_iff]
    exact ⟨a, ha, hq.1, hq.2⟩

theorem filter_pair_add_edge (g : DiGraph) (e : Edge) (hu : g.PairUnique) :
    (g.add_edge e).edges.filter
        (fun e' => e'.source == e.source && e'.target == e.target) = [e] := by
  simp only [DiGraph.add_edge]
  split
  · rename_i h
    rw [hasEdge_add_node_plain, hasEdge_add_node_plain] at h
    dsimp only
    rw [edges_add_node_plain, edges_add_node_plain]
    rw [filter_map_replace]
    have hle := pair_filter_length_le_one hu e.source e.target
    have hne : g.edges.filter
        (fun e' => e'.source == e.source && e'.target == e.target) ≠ [] := by
      rw [DiGraph.hasEdge, List.any_eq_true] at h
      obtain ⟨a, ha, hpa⟩ := h
      intro hnil
      rw [List.filter_eq_nil_iff] at hnil
      exact hnil a ha hpa
    have hpos := List.length_pos.mpr hne
    have hlen : (g.edges.filter
        (fun e' => e'.source == e.source && e'.target == e.target)).length = 1 := by
      omega
    obtain ⟨a, ha⟩ := List.length_eq_one.mp hlen
    rw [ha]
    rfl
  · rename_i h
    rw [hasEdge_add_node_plain, hasEdge_add_node_plain] at h
    dsimp only
    rw [edges_add_node_plain, edges_add_node_plain]
    rw [List.filter_append]
    have hnil : g.edges.filter
        (fun e' => e'.source == e.source && e'.target == e.target) = [] := by
      rw [List.filter_eq_nil_iff]
      intro a ha hpa
      rw [DiGraph.hasEdge] at h
      simp only [Bool.not_eq_true, List.any_eq_false] at h
      exact absurd hpa (by simpa using h a ha)
    rw [hnil]
    simp

/-- C3 counterexample: adding `A → B` as a `cross_reference` and then `A → B`
as a `forward_reference` leaves a single edge record carrying the second type;
the first relationship's record is gone (its attributes were overwritten), so
the two edges are not both present. -/
theorem add_relationship_two_types_cex :
    ((DiGraph.empty.add_relationship relAB1).add_relationship relAB2).edges
      = [⟨"A", "B", "forward_reference", "valid", none, none⟩] ∧
    ((DiGraph.empty.add_relationship relAB1).add_relationship relAB2).edges.filter
      (fun e => e.type == "cross_reference") = [] := by
  exact ⟨by decide, by decide⟩

/-- C3 (amended): the graph keeps at most one edge record per ordered pair, so
adding `s → t` with one type and then `s → t` with another leaves exactly one
edge on that pair, carrying the second relationship's attributes; when the
types differ, the first relationship's record is no longer in the graph — the
second addition mutates (replaces) it. -/
theorem add_relationship_same_pair_overwrites (g : DiGraph) (r₁ r₂ : Relationship)
    (hu : g.PairUnique) (hs : r₁.source = r₂.source) (ht : r₁.target = r₂.target) :
    ((g.add_relationship r₁).add_relationship r₂).edges.filter
        (fun e => e.source == r₂.source && e.target == r₂.target)
      = [⟨r₂.source, r₂.target, r₂.type, r₂.status, r₂.context, r₂.severity⟩] ∧
    (r₁.type ≠ r₂.type →
      (⟨r₁.source, r₁.target, r₁.type, r₁.status, r₁.context, r₁.severity⟩ : Edge) ∉
        ((g.add_relationship r₁).add_relationship r₂).edges) := by
  have hu₁ : (g.add_relationship r₁).PairUnique := pairUnique_add_edge _ hu
  have hfilter := filter_pair_add_edge (g.add_relationship r₁)
    ⟨r₂.source, r₂.target, r₂.type, r₂.status, r₂.context, r₂.severity⟩ hu₁
  dsimp only at hfilter
  refine ⟨hfilter, ?_⟩
  intro htype hmem
  have hp : ((⟨r₁.source, r₁.target, r₁.type, r₁.status, r₁.context, r₁.severity⟩ :
      Edge).source == r₂.source &&
      (⟨r₁.source, r₁.target, r₁.type, r₁.status, r₁.context, r₁.severity⟩ :
      Edge).target == r₂.target) = true := by
    simp [hs, ht]
  have : (⟨r₁.source, r₁.target, r₁.type, r₁.status, r₁.context, r₁.severity⟩ : Edge) ∈
      ((g.add_relationship r₁).add_relationship r₂).edges.filter
        (fun e => e.source == r₂.source && e.target == r₂.target) :=
    List.mem_filter.mpr ⟨hmem, hp⟩
  rw [show (g.add_relationship r₁).add_relationship r₂
      = (g.add_relationship r₁).add_edge
          ⟨r₂.source, r₂.target, r₂.type, r₂.status, r₂.context, r₂.severity⟩ from rfl,
    hfilter, List.mem_singleton] at this
  exact htype (congrArg Edge.type this)

/-- Witness for C3's amended theorem at the empty graph and the two
relationships `A → B` of different types. -/
theorem add_relationship_same_pair_overwrites_witness :
    DiGraph.empty.PairUnique ∧ relAB1.source = relAB2.source ∧
    relAB1.target = relAB2.target ∧ relAB1.type ≠ relAB2.type ∧
    (⟨relAB1.source, relAB1.target, relAB1.type, relAB1.status, relAB1.context,
        relAB1.severity⟩ : Edge) ∉
      ((DiGraph.empty.add_relationship relAB1).add_relationship relAB2).edges :=
  ⟨by decide, by decide, by decide, by decide,
    (add_relationship_same_pair_overwrites DiGraph.empty relAB1 relAB2
      (by decide) (by decide) (by decide)).2 (by decide)⟩

/-! ## C6 — duplicate detector -/

theorem string_append_left_cancel {s r r' : String} (h : s ++ r = s ++ r') : r = r' := by
  have := congrArg String.data h
  simp only [String.data_append] at this
  exact String.ext (List.append_cancel_left this)

theorem mkDuplicateAnomaly_inj {a b : String} :
    Validator.mkDuplicateAnomaly a = Validator.mkDuplicateAnomaly b ↔ a = b :=
  ⟨fun h => congrArg Anomaly.location h, fun h => by rw [h]⟩

theorem checkDuplicatesAux_count (x : String) (ts : List Topic) :
    ∀ (seen : List String),
    (Validator.checkDuplicatesAux ts seen).count (Validator.mkDuplicateAnomaly x)
      = (if x ∈ seen then (ts.map Topic.id).count x
         else (ts.map Topic.id).count x - 1) := by
  induction ts with
  | nil =>
    intro seen
    simp [Validator.checkDuplicatesAux]
  | cons t ts ih =>
    intro seen
    by_cases hseen : t.id ∈ seen
    · simp only [Validator.checkDuplicatesAux, if_pos hseen, List.count_cons, List.map_cons]
      rw [ih seen]
      by_cases hx : t.id = x
      · subst hx
        have hb : (Validator.mkDuplicateAnomaly t.id == Validator.mkDuplicateAnomaly t.id) = true := by
          simp
        have hb' : (t.id == t.id) = true := by simp
        simp [hseen]
      · have hb : (Validator.mkDuplicateAnomaly t.id == Validator.mkDuplicateAnomaly x) = false := by
          simp [mkDuplicateAnomaly_inj, hx]
        have hb' : (t.id == x) = false := by simp [hx]
        by_cases hxs : x ∈ seen
        · rw [if_pos hxs, if_pos hxs]
          simp [hb, hb']
        · rw [if_neg hxs, if_neg hxs]
          simp [hb, hb']
    · simp only [Validator.checkDuplicatesAux, if_neg hseen, List.map_cons]
      rw [ih (seen ++ [t.id])]
      by_cases hx : t.id = x
      · subst hx
        have hxs' : t.id ∈ seen ++ [t.id] := by simp
        rw [if_pos hxs', if_neg hseen]
        simp [List.count_cons]
      · have hxs' : (x ∈ seen ++ [t.id]) ↔ x ∈ seen := by
          simp [Ne.symm hx]
        have hb' : (t.id == x) = false := by simp [hx]
        by_cases hxs : x ∈ seen
        · rw [if_pos (hxs'.mpr hxs), if_pos hxs]
          simp [List.count_cons, hb']
        · rw [if_neg (fun h => hxs (hxs'.mp h)), if_neg hxs]
          simp [List.count_cons, hb']

theorem checkDuplicatesAux_shape (ts : List Topic) :
    ∀ seen, ∀ a ∈ Validator.checkDuplicatesAux ts seen,
      ∃ y, a = Validator.mkDuplicateAnomaly y := by
  induction ts with
  | nil => intro seen a ha; simp [Validator.checkDuplicatesAux] at ha
  | cons t ts ih =>
    intro seen a ha
    simp only [Validator.checkDuplicatesAux] at ha
    split at ha
    · rcases List.mem_cons.mp ha with rfl | ha
      · exact ⟨t.id, rfl⟩
      · exact ih seen a ha
    · exact ih (seen ++ [t.id]) a ha

/-- C6: walking the topic list in order, the first occurrence of an id is
"seen" and every later occurrence emits one `duplicate_topic` anomaly of
severity `critical`: for every id the number of emitted anomalies for it is
its number of occurrences minus one, every emitted anomaly is the
`duplicate_topic`/`critical` record of a repeated id, and the list containing
id `"7"` exactly twice yields exactly the one anomaly for its second
occurrence. -/
theorem check_duplicates_one_per_repeat (topics : List Topic) (x : String) :
    ((Validator.check_duplicates topics).count (Validator.mkDuplicateAnomaly x)
        = (topics.map Topic.id).count x - 1)
    ∧ (∀ a ∈ Validator.check_duplicates topics,
        a.type = "duplicate_topic" ∧ a.severity = "critical" ∧
        ∃ y, a = Validator.mkDuplicateAnomaly y ∧
          2 ≤ (topics.map Topic.id).count y)
    ∧ Validator.check_duplicates dupTopics = [Validator.mkDuplicateAnomaly "7"] := by
  refine ⟨?_, ?_, by decide⟩
  · rw [Validator.check_duplicates, checkDuplicatesAux_count]
    simp
  · intro a ha
    obtain ⟨y, rfl⟩ := checkDuplicatesAux_shape topics [] a ha
    refine ⟨rfl, rfl, y, rfl, ?_⟩
    have hpos : 0 < (Validator.check_duplicates topics).count
        (Validator.mkDuplicateAnomaly y) := List.count_pos_iff.mpr ha
    rw [Validator.check_duplicates, checkDuplicatesAux_count] at hpos
    simp only [List.not_mem_nil, if_false] at hpos
    omega

/-- Witness for C6 at the list containing id `"7"` twice. -/
theorem check_duplicates_one_per_repeat_witness :
    ((Validator.check_duplicates dupTopics).count (Validator.mkDuplicateAnomaly "7")
        = (dupTopics.map Topic.id).count "7" - 1)
    ∧ (dupTopics.map Topic.id).count "7" - 1 = 1 :=
  ⟨(check_duplicates_one_per_repeat dupTopics "7").1, by decide⟩

/-! ## C5 — broken-reference detector -/

theorem mkBrokenAnomaly_inj {s r r' : String} :
    Validator.mkBrokenAnomaly s r = Validator.mkBrokenAnomaly s r' ↔ r = r' := by
  constructor
  · intro h
    have hloc := congrArg Anomaly.location h
    simp only [Validator.mkBrokenAnomaly] at hloc
    exact string_append_left_cancel hloc
  · intro h
    rw [h]

theorem brokenFor_count (ids : List String) (t : Topic) (r : String) (hr : r ∉ ids) :
    (Validator.brokenFor ids t).count (Validator.mkBrokenAnomaly t.id r)
      = (t.cross_references ++ t.forward_references ++ t.backward_references).count r := by
  rw [Validator.brokenFor]
  generalize t.cross_references ++ t.forward_references ++ t.backward_references = l
  induction l with
  | nil => rfl
  | cons y ys ih =>
    rw [List.filterMap_cons]
    by_cases hy : y ∈ ids
    · have hyr : (y == r) = false := by
        simp only [beq_eq_false_iff_ne, ne_eq]
        rintro rfl
        exact hr hy
      simp only [if_pos hy]
      rw [List.count_cons, ih, hyr]
      simp
    · simp only [if_neg hy]
      rw [List.count_cons, List.count_cons, ih]
      by_cases hyr : y = r
      · subst hyr
        simp
      · have h1 : (y == r) = false := by simp [hyr]
        have h2 : (Validator.mkBrokenAnomaly t.id y == Validator.mkBrokenAnomaly t.id r) = false := by
          simp [mkBrokenAnomaly_inj, hyr]
        rw [h1, h2]

/-- C5 counterexample: a topic carrying the missing id `"9"` in both its
cross-reference and forward-reference lists produces *two*
`broken_cross_reference` anomalies for it, not exactly one per element of the
union of the three reference lists. -/
theorem validate_cross_references_union_cex :
    "9" ∉ ([dupRefTopic].map Topic.id) ∧
    (Validator.validate_cross_references [dupRefTopic]).count
        (Validator.mkBrokenAnomaly "1" "9") = 2 :=
  ⟨by decide, by decide⟩

/-- C5 (amended): the detector walks the *concatenation* of the three
reference lists and emits one `broken_cross_reference` anomaly (severity
`high`, location `"<source> → <missing target>"`, affected `[source]`) per
occurrence of a missing id — an id repeated across the lists is reported once
per occurrence; a topic carrying a single missing reference therefore yields
exactly one anomaly. -/
theorem validate_cross_references_per_occurrence (topics : List Topic) (t : Topic)
    (_ht : t ∈ topics) (r : String) (hr : r ∉ topics.map Topic.id) :
    ((Validator.brokenFor (topics.map Topic.id) t).count
        (Validator.mkBrokenAnomaly t.id r)
      = (t.cross_references ++ t.forward_references ++ t.backward_references).count r)
    ∧ Validator.validate_cross_references topics
        = topics.flatMap (Validator.brokenFor (topics.map Topic.id))
    ∧ (∀ a ∈ Validator.validate_cross_references topics,
        ∃ s m, s ∈ topics.map Topic.id ∧ m ∉ topics.map Topic.id ∧
          a = Validator.mkBrokenAnomaly s m ∧
          a.type = "broken_cross_reference" ∧ a.severity = "high" ∧
          a.location = s ++ " → " ++ m ∧ a.affected_topics = [s]) := by
  refine ⟨brokenFor_count _ t r hr, rfl, ?_⟩
  intro a ha
  rw [Validator.validate_cross_references, List.mem_flatMap] at ha
  obtain ⟨u, hu, hau⟩ := ha
  rw [Validator.brokenFor, List.mem_filterMap] at hau
  obtain ⟨m, _, hm⟩ := hau
  by_cases hmid : m ∈ topics.map Topic.id
  · rw [if_pos hmid] at hm
    exact absurd hm (by simp)
  · rw [if_neg hmid] at hm
    obtain rfl := Option.some.inj hm
    exact ⟨u.id, m, List.mem_map_of_mem Topic.id hu, hmid, rfl, rfl, rfl, rfl, rfl⟩

/-- Witness for C5's amended theorem: the topic referencing only the missing
id `"99.9"` yields exactly one anomaly for it. -/
theorem validate_cross_references_per_occurrence_witness :
    ((Validator.brokenFor ([brokenTopic].map Topic.id) brokenTopic).count
        (Validator.mkBrokenAnomaly brokenTopic.id "99.9")
      = (brokenTopic.cross_references ++ brokenTopic.forward_references ++
          brokenTopic.backward_references).count "99.9")
    ∧ (brokenTopic.cross_references ++ brokenTopic.forward_references ++
        brokenTopic.backward_references).count "99.9" = 1 :=
  ⟨(validate_cross_references_per_occurrence [brokenTopic] brokenTopic
      (List.mem_singleton.mpr rfl) "99.9" (by decide)).1, by decide⟩

/-! ## The lexicographic string order: basic theory -/

theorem charListLt_irrefl : ∀ l, charListLt l l = false := by
  intro l
  induction l with
  | nil => rfl
  | cons a as ih => simp [charListLt, ih]

theorem charListLt_asymm : ∀ {l₁ l₂ : List Char},
    charListLt l₁ l₂ = true → charListLt l₂ l₁ = false := by
  intro l₁
  induction l₁ with
  | nil =>
    intro l₂ h
    cases l₂ with
    | nil => simpa [charListLt] using h
    | cons b bs => rfl
  | cons a as ih =>
    intro l₂ h
    cases l₂ with
    | nil => simpa [charListLt] using h
    | cons b bs =>
      simp only [charListLt, Bool.or_eq_true, Bool.and_eq_true, beq_iff_eq,
        decide_eq_true_eq] at h
      rcases h with h | ⟨hab, hrec⟩
      · have h1 : ¬ b.toNat < a.toNat := by omega
        have h2 : ¬ b.toNat = a.toNat := by omega
        simp [charListLt, h1, h2]
      · have h1 : ¬ b.toNat < a.toNat := by omega
        have h2 := ih hrec
        simp [charListLt, h1, hab, h2]

theorem charListLt_trans : ∀ {l₁ l₂ l₃ : List Char},
    charListLt l₁ l₂ = true → charListLt l₂ l₃ = true → charListLt l₁ l₃ = true := by
  intro l₁
  induction l₁ with
  | nil =>
    intro l₂ l₃ h₁ h₂
    cases l₂ with
    | nil => simpa [charListLt] using h₁
    | cons b bs =>
      cases l₃ with
      | nil => simpa [charListLt] using h₂
      | cons c cs => rfl
  | cons a as ih =>
    intro l₂ l₃ h₁ h₂
    cases l₂ with
    | nil => simpa [charListLt] using h₁
    | cons b bs =>
      cases l₃ with
      | nil => simpa [charListLt] using h₂
      | cons c cs =>
        simp only [charListLt, Bool.or_eq_true, Bool.and_eq_true, beq_iff_eq,
          decide_eq_true_eq] at h₁ h₂ ⊢
        rcases h₁ with h₁ | ⟨hab, hrec₁⟩
        · rcases h₂ with h₂ | ⟨hbc, hrec₂⟩
          · exact Or.inl (by omega)
          · exact Or.inl (by omega)
        · rcases h₂ with h₂ | ⟨hbc, hrec₂⟩
          · exact Or.inl (by omega)
          · exact Or.inr ⟨by omega, ih hrec₁ hrec₂⟩

theorem charListLt_connex : ∀ {l₁ l₂ : List Char}, l₁ ≠ l₂ →
    charListLt l₁ l₂ = true ∨ charListLt l₂ l₁ = true := by
  intro l₁
  induction l₁ with
  | nil =>
    intro l₂ hne
    cases l₂ with
    | nil => exact absurd rfl hne
    | cons b bs => exact Or.inl rfl
  | cons a as ih =>
    intro l₂ hne
    cases l₂ with
    | nil => exact Or.inr rfl
    | cons b bs =>
      by_cases hab : a.toNat = b.toNat
      · have hab' : a = b := Char.ext (UInt32.toNat.inj hab)
        subst hab'
        have hne' : as ≠ bs := fun h => hne (by rw [h])
        rcases ih hne' with h | h
        · exact Or.inl (by simp [charListLt, h])
        · exact Or.inr (by simp [charListLt, h])
      · rcases Nat.lt_or_ge a.toNat b.toNat with h | h
        · exact Or.inl (by simp [charListLt, h])
        · have : b.toNat < a.toNat := by omega
          exact Or.inr (by simp [charListLt, this])

theorem strLt_irrefl (a : String) : strLt a a = false :=
  charListLt_irrefl a.data

theorem strLt_asymm {a b : String} (h : strLt a b = true) : strLt b a = false :=
  charListLt_asymm h

theorem strLt_trans {a b c : String} (h₁ : strLt a b = true) (h₂ : strLt b c = true) :
    strLt a c = true :=
  charListLt_trans h₁ h₂

theorem strLt_connex {a b : String} (hne : a ≠ b) :
    strLt a b = true ∨ strLt b a = true :=
  charListLt_connex (fun h => hne (String.ext h))

theorem strLt_ne {a b : String} (h : strLt a b = true) : a ≠ b := by
  rintro rfl
  rw [strLt_irrefl] at h
  exact Bool.false_ne_true h

/-! ## C9 — orphan detector -/

theorem mkOrphanAnomaly_inj : Function.Injective Validator.mkOrphanAnomaly :=
  fun _ _ h => congrArg Anomaly.location h

/-- C9: the detector emits exactly one `orphan_content` anomaly of severity
`low` for each node whose in-degree and out-degree over all edge types are
both zero, and nothing for any other node; the graph built from a single
topic with no parent, no children and empty reference lists reports it
exactly once. -/
theorem find_orphan_content_one_per_isolated (g : DiGraph) (h : g.nodes.Nodup)
    (n : String) :
    ((Validator.find_orphan_content g).count (Validator.mkOrphanAnomaly n)
      = if n ∈ g.nodes ∧ g.in_degree n = 0 ∧ g.out_degree n = 0 then 1 else 0)
    ∧ (∀ a ∈ Validator.find_orphan_content g,
        a.type = "orphan_content" ∧ a.severity = "low" ∧
        ∃ m, a = Validator.mkOrphanAnomaly m ∧ a.affected_topics = [m] ∧
          m ∈ g.nodes ∧ g.in_degree m = 0 ∧ g.out_degree m = 0)
    ∧ Validator.find_orphan_content (DiGraph.build_from_topics isolatedTopics)
        = [Validator.mkOrphanAnomaly "1"] := by
  refine ⟨?_, ?_, by decide⟩
  · rw [Validator.find_orphan_content,
      List.count_map_of_injective _ _ mkOrphanAnomaly_inj]
    by_cases hn : n ∈ g.nodes ∧ g.in_degree n = 0 ∧ g.out_degree n = 0
    · rw [if_pos hn]
      refine List.count_eq_one_of_mem (h.filter _) ?_
      rw [DiGraph.get_orphan_nodes, List.mem_filter]
      exact ⟨hn.1, by simp [hn.2.1, hn.2.2]⟩
    · rw [if_neg hn]
      rw [List.count_eq_zero]
      intro hmem
      rw [DiGraph.get_orphan_nodes, List.mem_filter] at hmem
      obtain ⟨h1, h2⟩ := hmem
      simp only [Bool.and_eq_true, beq_iff_eq] at h2
      exact hn ⟨h1, by simpa using h2.1, by simpa using h2.2⟩
  · intro a ha
    rw [Validator.find_orphan_content, List.mem_map] at ha
    obtain ⟨m, hm, rfl⟩ := ha
    rw [DiGraph.get_orphan_nodes, List.mem_filter] at hm
    obtain ⟨h1, h2⟩ := hm
    simp only [Bool.and_eq_true, beq_iff_eq] at h2
    exact ⟨rfl, rfl, m, rfl, rfl, h1, by simpa using h2.1, by simpa using h2.2⟩

/-- Witness for C9 at the graph built from a single isolated topic. -/
theorem find_orphan_content_one_per_isolated_witness :
    (Validator.find_orphan_content (DiGraph.build_from_topics isolatedTopics)).count
        (Validator.mkOrphanAnomaly "1")
      = if "1" ∈ (DiGraph.build_from_topics isolatedTopics).nodes ∧
          (DiGraph.build_from_topics isolatedTopics).in_degree "1" = 0 ∧
          (DiGraph.build_from_topics isolatedTopics).out_degree "1" = 0
        then 1 else 0 :=
  (find_orphan_content_one_per_isolated
    (DiGraph.build_from_topics isolatedTopics) (by decide) "1").1

/-! ## C10 — statistics never divide by zero -/

/-- C10: `get_statistics` succeeds on every graph state, the empty graph
included: the divisor of `average_degree` is `max(node count, 1) ≥ 1`, so no
`ZeroDivisionError` occurs, `average_degree` equals the total degree divided
by that divisor, and on a graph with no nodes it is `0`. -/
theorem get_statistics_total_average (g : DiGraph) :
    ∃ s, g.get_statistics = some s ∧
      s.average_degree = (g.sum_degrees : ℚ) / ((max g.nodes.length 1 : Nat) : ℚ) ∧
      s.total_nodes = g.nodes.length ∧ s.total_edges = g.edges.length ∧
      s.orphan_nodes = g.get_orphan_nodes.length ∧
      s.circular_references = g.simple_cycles.length ∧
      (g.nodes = [] → s.average_degree = 0) := by
  have hb : ((max g.nodes.length 1 : Nat) : ℚ) ≠ 0 := by
    rw [Nat.cast_ne_zero]
    omega
  refine ⟨⟨g.nodes.length, g.edges.length, g.get_orphan_nodes.length,
    g.simple_cycles.length, (g.sum_degrees : ℚ) / ((max g.nodes.length 1 : Nat) : ℚ)⟩,
    ?_, rfl, rfl, rfl, rfl, rfl, ?_⟩
  · rw [DiGraph.get_statistics, pyDiv, if_neg hb]
    rfl
  · intro hempty
    have hsum : g.sum_degrees = 0 := by
      rw [DiGraph.sum_degrees, hempty]
      rfl
    rw [hsum]
    simp

/-- Witness for C10 at the empty graph: statistics are produced and the
average degree is `0`. -/
theorem get_statistics_total_average_witness :
    ∃ s, DiGraph.empty.get_statistics = some s ∧ s.average_degree = 0 := by
  obtain ⟨s, hs, _, _, _, _, _, hempty⟩ := get_statistics_total_average DiGraph.empty
  exact ⟨s, hs, hempty rfl⟩

/-! ## C2 — order of the concatenated detector outputs -/

theorem gapsOfSorted_shape : ∀ (l : List (Nat × String)),
    ∀ a ∈ Validator.gapsOfSorted l, ∃ i j m, a = Validator.mkGapAnomaly i j m := by
  intro l
  induction l with
  | nil => intro a ha; simp [Validator.gapsOfSorted] at ha
  | cons x xs ih =>
    match xs, ih with
    | [], _ => intro a ha; simp [Validator.gapsOfSorted] at ha
    | (n₂, i₂) :: rest, ih =>
      intro a ha
      obtain ⟨n₁, i₁⟩ := x
      rw [Validator.gapsOfSorted, List.mem_append] at ha
      rcases ha with ha | ha
      · split at ha
        · rw [List.mem_map] at ha
          obtain ⟨m, _, rfl⟩ := ha
          exact ⟨i₁, i₂, m, rfl⟩
        · simp at ha
      · exact ih a ha

theorem check_numbering_gaps_type (topics : List Topic) :
    ∀ a ∈ Validator.check_numbering_gaps topics,
      a.type = "numbering_gap" ∧ a.severity = "high" := by
  intro a ha
  rw [Validator.check_numbering_gaps, List.mem_flatMap] at ha
  obtain ⟨p, _, hap⟩ := ha
  obtain ⟨i, j, m, rfl⟩ := gapsOfSorted_shape _ a hap
  exact ⟨rfl, rfl⟩

theorem validate_cross_references_type (topics : List Topic) :
    ∀ a ∈ Validator.validate_cross_references topics,
      a.type = "broken_cross_reference" ∧ a.severity = "high" := by
  intro a ha
  rw [Validator.validate_cross_references, List.mem_flatMap] at ha
  obtain ⟨u, _, hau⟩ := ha
  rw [Validator.brokenFor, List.mem_filterMap] at hau
  obtain ⟨m, _, hm⟩ := hau
  split at hm
  · exact absurd hm (by simp)
  · obtain rfl := Option.some.inj hm
    exact ⟨rfl, rfl⟩

theorem detect_circular_references_type (g : DiGraph) :
    ∀ a ∈ Validator.detect_circular_references g,
      a.type = "circular_reference" ∧ a.severity = "medium" := by
  intro a ha
  rw [Validator.detect_circular_references, List.mem_map] at ha
  obtain ⟨c, _, rfl⟩ := ha
  exact ⟨rfl, rfl⟩

theorem find_orphan_content_type (g : DiGraph) :
    ∀ a ∈ Validator.find_orphan_content g,
      a.type = "orphan_content" ∧ a.severity = "low" := by
  intro a ha
  rw [Validator.find_orphan_content, List.mem_map] at ha
  obtain ⟨m, _, rfl⟩ := ha
  exact ⟨rfl, rfl⟩

theorem check_duplicates_type (topics : List Topic) :
    ∀ a ∈ Validator.check_duplicates topics,
      a.type = "duplicate_topic" ∧ a.severity = "critical" := by
  intro a ha
  obtain ⟨y, rfl⟩ := checkDuplicatesAux_shape topics [] a ha
  exact ⟨rfl, rfl⟩

theorem generate_resolution_strategies_map_type
    (strat : Anomaly → List String) (l : List Anomaly) :
    (Validator.generate_resolution_strategies strat l).map Anomaly.type
      = l.map Anomaly.type := by
  rw [Validator.generate_resolution_strategies, List.map_map]
  apply List.map_congr_left
  intro a _
  simp only [Function.comp]
  split <;> rfl

/-- C2 counterexample: on a topic list producing both a numbering gap and a
duplicate, the anomaly sequence returned by `validate` starts with the
`numbering_gap` anomaly and ends with the `duplicate_topic` anomaly — the
duplicate anomalies are not first. -/
theorem validate_order_cex :
    (Validator.validate orderTopics (DiGraph.build_from_topics orderTopics)
        (fun _ => [])).map Anomaly.type
      = ["numbering_gap", "orphan_content", "orphan_content", "duplicate_topic"] := by
  decide

/-- C2 (amended): `validate` returns the concatenation of the five detector
outputs in the source's fixed order — numbering gaps first, then broken
cross-references, circular references, orphans, and the duplicate anomalies
*last* — with resolution strategies attached in place afterwards (which
changes no anomaly's type and no position). -/
theorem validate_concatenation_order (topics : List Topic) (g : DiGraph)
    (strat : Anomaly → List String) :
    Validator.validate topics g strat
      = Validator.generate_resolution_strategies strat
          (Validator.check_numbering_gaps topics
            ++ Validator.validate_cross_references topics
            ++ Validator.detect_circular_references g
            ++ Validator.find_orphan_content g
            ++ Validator.check_duplicates topics)
    ∧ (Validator.validate topics g strat).map Anomaly.type
        = ((Validator.check_numbering_gaps topics).map Anomaly.type
            ++ (Validator.validate_cross_references topics).map Anomaly.type
            ++ (Validator.detect_circular_references g).map Anomaly.type
            ++ (Validator.find_orphan_content g).map Anomaly.type
            ++ (Validator.check_duplicates topics).map Anomaly.type)
    ∧ (∀ a ∈ Validator.check_numbering_gaps topics, a.type = "numbering_gap")
    ∧ (∀ a ∈ Validator.validate_cross_references topics,
        a.type = "broken_cross_reference")
    ∧ (∀ a ∈ Validator.detect_circular_references g, a.type = "circular_reference")
    ∧ (∀ a ∈ Validator.find_orphan_content g, a.type = "orphan_content")
    ∧ (∀ a ∈ Validator.check_duplicates topics, a.type = "duplicate_topic") := by
  refine ⟨rfl, ?_, fun a ha => (check_numbering_gaps_type topics a ha).1,
    fun a ha => (validate_cross_references_type topics a ha).1,
    fun a ha => (detect_circular_references_type g a ha).1,
    fun a ha => (find_orphan_content_type g a ha).1,
    fun a ha => (check_duplicates_type topics a ha).1⟩
  rw [Validator.validate, generate_resolution_strategies_map_type]
  simp [List.map_append]

/-- Witness for C2's amended theorem at the concrete duplicated/gapped topic
list. -/
theorem validate_concatenation_order_witness :
    (Validator.validate orderTopics (DiGraph.build_from_topics orderTopics)
        (fun _ => [])).map Anomaly.type
      = ((Validator.check_numbering_gaps orderTopics).map Anomaly.type
          ++ (Validator.validate_cross_references orderTopics).map Anomaly.type
          ++ (Validator.detect_circular_references
                (DiGraph.build_from_topics orderTopics)).map Anomaly.type
          ++ (Validator.find_orphan_content
                (DiGraph.build_from_topics orderTopics)).map Anomaly.type
          ++ (Validator.check_duplicates orderTopics).map Anomaly.type) :=
  (validate_concatenation_order orderTopics (DiGraph.build_from_topics orderTopics)
    (fun _ => [])).2.1

/-! ## C4 — numbering-gap detector -/

theorem strLt_false_cases {a b : String} (h : strLt a b = false) :
    a = b ∨ strLt b a = true := by
  by_cases hab : a = b
  · exact Or.inl hab
  · rcases strLt_connex hab with h' | h'
    · rw [h'] at h
      exact absurd h (by simp)
    · exact Or.inr h'

theorem pairLe_total (a b : Nat × String) :
    Validator.pairLe a b = true ∨ Validator.pairLe b a = true := by
  unfold Validator.pairLe
  rcases Nat.lt_trichotomy a.1 b.1 with h | h | h
  · exact Or.inl (by simp [h])
  · by_cases hs : strLt b.2 a.2 = true
    · refine Or.inr ?_
      have : strLt a.2 b.2 = false := strLt_asymm hs
      simp [h, this]
    · refine Or.inl ?_
      simp only [Bool.or_eq_true, Bool.and_eq_true, beq_iff_eq]
      exact Or.inr ⟨h, by simp [Bool.not_eq_true] at hs ⊢; exact hs⟩
  · exact Or.inr (by simp [h])

theorem pairLe_trans {a b c : Nat × String} (h₁ : Validator.pairLe a b = true)
    (h₂ : Validator.pairLe b c = true) : Validator.pairLe a c = true := by
  unfold Validator.pairLe at h₁ h₂ ⊢
  simp only [Bool.or_eq_true, Bool.and_eq_true, beq_iff_eq, decide_eq_true_eq,
    Bool.not_eq_true'] at h₁ h₂ ⊢
  rcases h₁ with h₁ | ⟨hab, hba⟩
  · rcases h₂ with h₂ | ⟨hbc, hcb⟩
    · exact Or.inl (by omega)
    · exact Or.inl (by omega)
  · rcases h₂ with h₂ | ⟨hbc, hcb⟩
    · exact Or.inl (by omega)
    · refine Or.inr ⟨by omega, ?_⟩
      rcases strLt_false_cases hba with hb | hb
      · rcases strLt_false_cases hcb with hc | hc
        · rw [hc, hb]
          exact strLt_irrefl _
        · rw [← hb]
          exact strLt_asymm hc
      · rcases strLt_false_cases hcb with hc | hc
        · rw [hc]
          exact strLt_asymm hb
        · exact strLt_asymm (strLt_trans hb hc)

theorem insertPair_perm (x : Nat × String) : ∀ (l : List (Nat × String)),
    (Validator.insertPair x l).Perm (x :: l) := by
  intro l
  induction l with
  | nil => exact List.Perm.refl _
  | cons y ys ih =>
    rw [Validator.insertPair]
    split
    · exact (ih.cons y).trans (List.Perm.swap x y ys)
    · exact List.Perm.refl _

theorem insertPair_pairwise (x : Nat × String) : ∀ (l : List (Nat × String)),
    l.Pairwise (fun a b => Validator.pairLe a b = true) →
    (Validator.insertPair x l).Pairwise (fun a b => Validator.pairLe a b = true) := by
  intro l
  induction l with
  | nil => intro _; simp [Validator.insertPair]
  | cons y ys ih =>
    intro h
    rw [List.pairwise_cons] at h
    obtain ⟨hy, hys⟩ := h
    rw [Validator.insertPair]
    split
    · rename_i hyx
      rw [List.pairwise_cons]
      refine ⟨?_, ih hys⟩
      intro z hz
      have := (insertPair_perm x ys).mem_iff.mp hz
      rcases List.mem_cons.mp this with rfl | hzys
      · exact hyx
      · exact hy z hzys
    · rename_i hyx
      have hxy : Validator.pairLe x y = true := by
        rcases pairLe_total x y with h | h
        · exact h
        · exact absurd h hyx
      rw [List.pairwise_cons]
      refine ⟨?_, List.pairwise_cons.mpr ⟨hy, hys⟩⟩
      intro z hz
      rcases List.mem_cons.mp hz with rfl | hzys
      · exact hxy
      · exact pairLe_trans hxy (hy z hzys)

theorem sortPairs_perm : ∀ (l : List (Nat × String)),
    (Validator.sortPairs l).Perm l := by
  intro l
  induction l with
  | nil => exact List.Perm.refl _
  | cons x xs ih =>
    rw [Validator.sortPairs]
    exact (insertPair_perm x _).trans (ih.cons x)

theorem sortPairs_pairwise : ∀ (l : List (Nat × String)),
    (Validator.sortPairs l).Pairwise (fun a b => Validator.pairLe a b = true) := by
  intro l
  induction l with
  | nil => simp [Validator.sortPairs]
  | cons x xs ih =>
    rw [Validator.sortPairs]
    exact insertPair_pairwise x _ ih

theorem gapsOfSorted_length : ∀ (l : List (Nat × String)),
    (Validator.gapsOfSorted l).length = missingCount l := by
  intro l
  induction l with
  | nil => rfl
  | cons x xs ih =>
    match xs, ih with
    | [], _ => rfl
    | (n₂, i₂) :: rest, ih =>
      obtain ⟨n₁, i₁⟩ := x
      rw [Validator.gapsOfSorted, List.length_append, ih]
      have : missingCount ((n₁, i₁) :: (n₂, i₂) :: rest)
          = (n₂ - n₁ - 1) + missingCount ((n₂, i₂) :: rest) := rfl
      rw [this]
      congr 1
      split
      · rw [List.length_map, List.length_range']
      · rename_i hlt
        simp only [List.length_nil]
        omega

/-- C4: the detector groups topics by parent (`root` for an absent parent),
keeps only the ids whose trailing dot-separated segment is numeric, sorts them
by `(number, id)`, and for each adjacent sorted pair with difference greater
than one emits exactly one `numbering_gap` anomaly per missing integer, with
severity `high` and the two bounding ids as affected; children numbered
{1,2,5} under one parent yield exactly the two anomalies for missing 3 and
missing 4. -/
theorem check_numbering_gaps_per_missing_integer (topics : List Topic) :
    Validator.check_numbering_gaps topics
      = (Validator.groupParents topics).flatMap (fun p =>
          Validator.gapsOfSorted (Validator.sortPairs
            (Validator.numericChildren (Validator.groupChildren topics p))))
    ∧ (∀ p, (Validator.sortPairs (Validator.numericChildren
          (Validator.groupChildren topics p))).Pairwise
            (fun a b => Validator.pairLe a b = true)
        ∧ (Validator.sortPairs (Validator.numericChildren
            (Validator.groupChildren topics p))).Perm
              (Validator.numericChildren (Validator.groupChildren topics p)))
    ∧ (Validator.check_numbering_gaps topics).length
        = ((Validator.groupParents topics).map (fun p =>
            missingCount (Validator.sortPairs
              (Validator.numericChildren (Validator.groupChildren topics p))))).sum
    ∧ (∀ a ∈ Validator.check_numbering_gaps topics,
        ∃ i j m, a = Validator.mkGapAnomaly i j m ∧ a.type = "numbering_gap" ∧
          a.severity = "high" ∧ a.affected_topics = [i, j] ∧
          a.description = "Missing topic " ++ Validator.construct_missing_id i m
            ++ " in sequence")
    ∧ Validator.check_numbering_gaps gapTopics
        = [Validator.mkGapAnomaly "a.2" "a.5" 3, Validator.mkGapAnomaly "a.2" "a.5" 4] := by
  refine ⟨rfl, fun p => ⟨sortPairs_pairwise _, sortPairs_perm _⟩, ?_, ?_, by decide⟩
  · rw [Validator.check_numbering_gaps, List.length_flatMap]
    congr 1
    apply List.map_congr_left
    intro p _
    exact gapsOfSorted_length _
  · intro a ha
    rw [Validator.check_numbering_gaps, List.mem_flatMap] at ha
    obtain ⟨p, _, hap⟩ := ha
    obtain ⟨i, j, m, rfl⟩ := gapsOfSorted_shape _ a hap
    exact ⟨i, j, m, rfl, rfl, rfl, rfl, rfl⟩

/-- Witness for C4 at the {1,2,5} sibling list: the counting conjunct yields
exactly two missing integers. -/
theorem check_numbering_gaps_per_missing_integer_witness :
    (Validator.check_numbering_gaps gapTopics).length
        = ((Validator.groupParents gapTopics).map (fun p =>
            missingCount (Validator.sortPairs
              (Validator.numericChildren (Validator.groupChildren gapTopics p))))).sum
    ∧ ((Validator.groupParents gapTopics).map (fun p =>
          missingCount (Validator.sortPairs
            (Validator.numericChildren (Validator.groupChildren gapTopics p))))).sum = 2 :=
  ⟨(check_numbering_gaps_per_missing_integer gapTopics).2.2.1, by decide⟩

/-! ## C8 — hierarchical edges from the `parent` field -/

theorem edges_add_topic (g : DiGraph) (t : Topic) :
    (g.add_topic t).edges = g.edges := rfl

theorem edges_foldl_add_topic : ∀ (ts : List Topic) (g : DiGraph),
    (ts.foldl DiGraph.add_topic g).edges = g.edges := by
  intro ts
  induction ts with
  | nil => intro g; rfl
  | cons t ts ih =>
    intro g
    rw [List.foldl_cons, ih, edges_add_topic]

theorem mem_add_edge_keep {g : DiGraph} {e e' : Edge} (he : e ∈ g.edges)
    (h : e = e' ∨ e.source ≠ e'.source ∨ e.target ≠ e'.target) :
    e ∈ (g.add_edge e').edges := by
  rcases h with rfl | h
  · exact mem_add_edge_self g e
  · exact mem_add_edge_of_ne he h

theorem hier_mem_foldl_refs {p c tid typ : String} :
    ∀ (rs : List String) (g : DiGraph),
      (⟨p, c, "hierarchical", "valid", none, none⟩ : Edge) ∈ g.edges →
      (tid = p → c ∉ rs) →
      (⟨p, c, "hierarchical", "valid", none, none⟩ : Edge) ∈
        (rs.foldl (fun g r =>
          g.add_relationship ⟨tid, r, typ, "valid", none, none⟩) g).edges := by
  intro rs
  induction rs with
  | nil => intro g hmem _; exact hmem
  | cons r rs ih =>
    intro g hmem hcond
    rw [List.foldl_cons]
    refine ih _ ?_ ?_
    · refine mem_add_edge_keep hmem (Or.inr ?_)
      dsimp only
      by_cases htid : tid = p
      · refine Or.inr ?_
        have : c ∉ r :: rs := hcond htid
        simp only [List.mem_cons, not_or] at this
        exact fun hct => this.1 hct
      · exact Or.inl (fun hpt => htid hpt.symm)
    · intro htid
      have : c ∉ r :: rs := hcond htid
      simp only [List.mem_cons, not_or] at this
      exact this.2

theorem hier_mem_process_topic {p c : String} (u : Topic) (g : DiGraph)
    (hmem : (⟨p, c, "hierarchical", "valid", none, none⟩ : Edge) ∈ g.edges)
    (hcond : u.id = p →
      c ∉ u.cross_references ++ u.forward_references ++ u.backward_references) :
    (⟨p, c, "hierarchical", "valid", none, none⟩ : Edge) ∈
      (DiGraph.process_topic g u).edges := by
  have hcond' : u.id = p →
      c ∉ u.cross_references ∧ c ∉ u.forward_references ∧ c ∉ u.backward_references := by
    intro h
    have := hcond h
    simp only [List.mem_append, not_or] at this
    exact ⟨this.1.1, this.1.2, this.2⟩
  rw [DiGraph.process_topic]
  refine hier_mem_foldl_refs _ _
    (hier_mem_foldl_refs _ _
      (hier_mem_foldl_refs _ _ ?_ (fun h => (hcond' h).1))
      (fun h => (hcond' h).2.1))
    (fun h => (hcond' h).2.2)
  match hpar : u.parent with
  | none => exact hmem
  | some q =>
    by_cases hq : q = ""
    · simp only [hq, if_pos rfl]
      exact hmem
    · simp only [if_neg hq]
      by_cases hpair : q = p ∧ u.id = c
      · rw [DiGraph.add_relationship]
        obtain ⟨rfl, rfl⟩ := hpair
        exact mem_add_edge_keep hmem (Or.inl rfl)
      · rw [DiGraph.add_relationship]
        refine mem_add_edge_keep hmem (Or.inr ?_)
        rw [Classical.not_and_iff_or_not_not] at hpair
        rcases hpair with h | h
        · exact Or.inl (fun hc => h hc.symm)
        · exact Or.inr (fun hc => h hc.symm)

theorem hier_mem_foldl_process {p c : String} :
    ∀ (l : List Topic) (g : DiGraph),
      (⟨p, c, "hierarchical", "valid", none, none⟩ : Edge) ∈ g.edges →
      (∀ u ∈ l, u.id = p →
        c ∉ u.cross_references ++ u.forward_references ++ u.backward_references) →
      (⟨p, c, "hierarchical", "valid", none, none⟩ : Edge) ∈
        (l.foldl DiGraph.process_topic g).edges := by
  intro l
  induction l with
  | nil => intro g hmem _; exact hmem
  | cons u l ih =>
    intro g hmem hcond
    rw [List.foldl_cons]
    exact ih _ (hier_mem_process_topic u g hmem (hcond u (List.mem_cons_self u l)))
      (fun v hv => hcond v (List.mem_cons_of_mem u hv))

theorem mem_foldl_refs_elim {tid typ : String} {e : Edge} :
    ∀ (rs : List String) (g : DiGraph),
      e ∈ (rs.foldl (fun g r =>
          g.add_relationship ⟨tid, r, typ, "valid", none, none⟩) g).edges →
      e ∈ g.edges ∨ e.type = typ := by
  intro rs
  induction rs with
  | nil => intro g h; exact Or.inl h
  | cons r rs ih =>
    intro g h
    rw [List.foldl_cons] at h
    rcases ih _ h with h' | h'
    · rcases mem_add_edge_elim h' with h'' | rfl
      · exact Or.inl h''
      · exact Or.inr rfl
    · exact Or.inr h'

theorem mem_process_topic_elim {g : DiGraph} {u : Topic} {e : Edge}
    (h : e ∈ (DiGraph.process_topic g u).edges) :
    e ∈ g.edges
    ∨ (∃ p, u.parent = some p ∧ p ≠ "" ∧
        e = ⟨p, u.id, "hierarchical", "valid", none, none⟩)
    ∨ e.type = "cross_reference" ∨ e.type = "forward_reference"
    ∨ e.type = "backward_reference" := by
  rw [DiGraph.process_topic] at h
  rcases mem_foldl_refs_elim _ _ h with h | h
  · rcases mem_foldl_refs_elim _ _ h with h | h
    · rcases mem_foldl_refs_elim _ _ h with h | h
      · match hpar : u.parent with
        | none =>
          rw [hpar] at h
          exact Or.inl h
        | some q =>
          rw [hpar] at h
          dsimp only at h
          by_cases hq : q = ""
          · rw [if_pos hq] at h
            exact Or.inl h
          · rw [if_neg hq, DiGraph.add_relationship] at h
            rcases mem_add_edge_elim h with h | rfl
            · exact Or.inl h
            · exact Or.inr (Or.inl ⟨q, rfl, hq, rfl⟩)
      · exact Or.inr (Or.inr (Or.inl h))
    · exact Or.inr (Or.inr (Or.inr (Or.inl h)))
  · exact Or.inr (Or.inr (Or.inr (Or.inr h)))

theorem hier_only_from_parent_foldl (ts : List Topic) :
    ∀ (l : List Topic) (g : DiGraph), (∀ u ∈ l, u ∈ ts) →
      (∀ e ∈ g.edges, e.type = "hierarchical" →
        ∃ u ∈ ts, u.id = e.target ∧ u.parent = some e.source ∧ e.source ≠ "") →
      (∀ e ∈ (l.foldl DiGraph.process_topic g).edges, e.type = "hierarchical" →
        ∃ u ∈ ts, u.id = e.target ∧ u.parent = some e.source ∧ e.source ≠ "") := by
  intro l
  induction l with
  | nil => intro g _ hg; exact hg
  | cons u l ih =>
    intro g hsub hg
    rw [List.foldl_cons]
    refine ih _ (fun v hv => hsub v (List.mem_cons_of_mem u hv)) ?_
    intro e he htype
    rcases mem_process_topic_elim he with h | ⟨p, hpar, hpne, rfl⟩ | h | h | h
    · exact hg e h htype
    · exact ⟨u, hsub u (List.mem_cons_self u l), rfl, hpar, hpne⟩
    all_goals simp_all

/-- C8 counterexample: for the child `c` with `parent = "P"` followed by the
topic `P` whose cross-references also name `c`, construction leaves a single
edge `P → c` of type `cross_reference`: no `hierarchical` edge `P → c` exists,
because the later reference addition overwrote the edge's attributes. -/
theorem build_hierarchical_overwritten_cex :
    (DiGraph.build_from_topics overwriteTopics).edges
      = [⟨"P", "c", "cross_reference", "valid", none, none⟩] ∧
    (DiGraph.build_from_topics overwriteTopics).edges.filter
      (fun e => e.type == "hierarchical") = [] :=
  ⟨by decide, by decide⟩

/-- C8 (amended): for every topic with a (Python-truthy) parent id, an edge
parent → topic exists after construction and is of type `hierarchical`
provided no topic carrying the parent's id lists the child among its
cross/forward/backward references (otherwise the later reference addition
overwrites the pair's attributes, the store keeping one edge per ordered
pair); and hierarchical-typed edges are derived only from `parent` fields —
every hierarchical edge's target is a topic id whose `parent` field names the
edge's source — never from the `children` lists. -/
theorem build_hierarchical_edges :
    (∀ (ts : List Topic) (t : Topic) (p : String), t ∈ ts → t.parent = some p →
      p ≠ "" →
      (∀ u ∈ ts, u.id = p →
        t.id ∉ u.cross_references ++ u.forward_references ++ u.backward_references) →
      (⟨p, t.id, "hierarchical", "valid", none, none⟩ : Edge) ∈
        (DiGraph.build_from_topics ts).edges)
    ∧ (∀ (ts : List Topic), ∀ e ∈ (DiGraph.build_from_topics ts).edges,
        e.type = "hierarchical" →
          ∃ u ∈ ts, u.id = e.target ∧ u.parent = some e.source ∧ e.source ≠ "") := by
  constructor
  · intro ts t p ht hp hpne hnoref
    obtain ⟨l₁, l₂, rfl⟩ := List.append_of_mem ht
    rw [DiGraph.build_from_topics, List.foldl_append, List.foldl_cons]
    refine hier_mem_foldl_process l₂ _ ?_
      (fun u hu => hnoref u (by simp [hu]))
    have hcreate : (⟨p, t.id, "hierarchical", "valid", none, none⟩ : Edge) ∈
        (DiGraph.process_topic (List.foldl DiGraph.process_topic
          (List.foldl DiGraph.add_topic DiGraph.empty (l₁ ++ t :: l₂)) l₁) t).edges := by
      rw [DiGraph.process_topic, hp]
      dsimp only
      rw [if_neg hpne]
      refine hier_mem_foldl_refs _ _
        (hier_mem_foldl_refs _ _
          (hier_mem_foldl_refs _ _ ?_ ?_) ?_) ?_
      · rw [DiGraph.add_relationship]
        exact mem_add_edge_self _ _
      all_goals
        intro htp
        have := hnoref t ht htp
        simp only [List.mem_append, not_or] at this
        tauto
    exact hcreate
  · intro ts e he htype
    rw [DiGraph.build_from_topics] at he
    refine hier_only_from_parent_foldl ts ts _ (fun u hu => hu) ?_ e he htype
    intro e' he'
    rw [edges_foldl_add_topic] at he'
    exact absurd he' (List.not_mem_nil e')

/-- Witness for C8's amended theorem: for the two-topic list with child `c`
under parent `P` and no interfering reference, the hierarchical edge exists. -/
theorem build_hierarchical_edges_witness :
    (⟨"P", "c", "hierarchical", "valid", none, none⟩ : Edge) ∈
      (DiGraph.build_from_topics
        [{ id := "c", parent := some "P" }, { id := "P" }]).edges :=
  build_hierarchical_edges.1 [{ id := "c", parent := some "P" }, { id := "P" }]
    { id := "c", parent := some "P" } "P" (List.mem_cons_self _ _) rfl (by decide)
    (by
      intro u hu hid
      rcases List.mem_cons.mp hu with rfl | hu
      · simp
      · rcases List.mem_cons.mp hu with rfl | hu
        · simp
        · exact absurd hu (List.not_mem_nil u))

/-! ## C7 — circular-reference detector: the cycle enumeration -/

theorem mem_insertEverywhere {α : Type} (x : α) :
    ∀ (l z : List α), z ∈ insertEverywhere x l ↔
      ∃ l₁ l₂, l = l₁ ++ l₂ ∧ z = l₁ ++ x :: l₂ := by
  intro l
  induction l with
  | nil =>
    intro z
    constructor
    · intro hz
      rcases List.mem_singleton.mp hz with rfl
      exact ⟨[], [], rfl, rfl⟩
    · rintro ⟨l₁, l₂, hl, rfl⟩
      have h1 : l₁ = [] := by
        cases l₁ with
        | nil => rfl
        | cons a as => simp at hl
      have h2 : l₂ = [] := by
        cases l₂ with
        | nil => rfl
        | cons a as => rw [h1] at hl; simp at hl
      rw [h1, h2]
      simp [insertEverywhere]
  | cons y ys ih =>
    intro z
    rw [insertEverywhere, List.mem_cons]
    constructor
    · rintro (rfl | hz)
      · exact ⟨[], y :: ys, rfl, rfl⟩
      · rw [List.mem_map] at hz
        obtain ⟨w, hw, rfl⟩ := hz
        obtain ⟨l₁, l₂, rfl, rfl⟩ := (ih w).mp hw
        exact ⟨y :: l₁, l₂, rfl, rfl⟩
    · rintro ⟨l₁, l₂, hl, rfl⟩
      cases l₁ with
      | nil =>
        simp only [List.nil_append] at hl ⊢
        rw [← hl]
        exact Or.inl rfl
      | cons a as =>
        rw [List.cons_append] at hl
        obtain ⟨rfl, hl'⟩ := List.cons.inj hl
        refine Or.inr ?_
        rw [List.mem_map]
        exact ⟨as ++ x :: l₂, (ih _).mpr ⟨as, l₂, hl', rfl⟩, rfl⟩

theorem mem_perms {α : Type} : ∀ (l c : List α), c ∈ perms l ↔ c.Perm l := by
  intro l
  induction l with
  | nil =>
    intro c
    rw [perms]
    constructor
    · intro hc
      rcases List.mem_singleton.mp hc with rfl
      exact List.Perm.refl _
    · intro hc
      rw [List.perm_nil] at hc
      rw [hc]
      exact List.mem_singleton.mpr rfl
  | cons x xs ih =>
    intro c
    rw [perms, List.mem_flatMap]
    constructor
    · rintro ⟨w, hw, hc⟩
      obtain ⟨l₁, l₂, rfl, rfl⟩ := (mem_insertEverywhere x _ _).mp hc
      exact List.Perm.trans List.perm_middle (((ih _).mp hw).cons x)
    · intro hc
      have hx : x ∈ c := hc.mem_iff.mpr (List.mem_cons_self x xs)
      obtain ⟨l₁, l₂, rfl⟩ := List.append_of_mem hx
      refine ⟨l₁ ++ l₂, ?_, (mem_insertEverywhere x _ _).mpr ⟨l₁, l₂, rfl, rfl⟩⟩
      rw [ih]
      have hperm : List.Perm (x :: (l₁ ++ l₂)) (x :: xs) :=
        List.Perm.trans List.perm_middle.symm hc
      exact hperm.cons_inv

theorem mem_distinctLists {l c : List String} (hl : l.Nodup) :
    c ∈ DiGraph.distinctLists l ↔ (c.Nodup ∧ ∀ x ∈ c, x ∈ l) := by
  rw [DiGraph.distinctLists, List.mem_dedup, List.mem_flatMap]
  constructor
  · rintro ⟨s, hs, hc⟩
    rw [List.mem_sublists] at hs
    rw [mem_perms] at hc
    refine ⟨hc.symm.nodup (hs.nodup hl), ?_⟩
    intro x hx
    exact hs.subset (hc.subset hx)
  · rintro ⟨hcnd, hsub⟩
    obtain ⟨s, hs1, hs2⟩ := hcnd.subperm hsub
    exact ⟨s, List.mem_sublists.mpr hs2, (mem_perms s c).mpr hs1.symm⟩

theorem mod_succ_mod (a L : Nat) : ((a % L) + 1) % L = (a + 1) % L := by
  conv_lhs => rw [Nat.add_mod]
  conv_rhs => rw [Nat.add_mod]
  rw [Nat.mod_mod_of_dvd a dvd_rfl]

theorem wrapPairs_length (c : List String) :
    (DiGraph.wrapPairs c).length = c.length := by
  rw [DiGraph.wrapPairs, List.length_zip, List.length_rotate, Nat.min_self]

theorem wrapPairs_rotate (c : List String) (n : Nat) :
    DiGraph.wrapPairs (c.rotate n) = (DiGraph.wrapPairs c).rotate n := by
  rw [DiGraph.wrapPairs, DiGraph.wrapPairs]
  rw [List.rotate_rotate, Nat.add_comm n 1, ← List.rotate_rotate]
  rw [List.zip_eq_zipWith, List.zip_eq_zipWith]
  exact (List.zipWith_rotate_distrib Prod.mk c (c.rotate 1) n
    (by rw [List.length_rotate])).symm

theorem isCycleList_rotate {g : DiGraph} {c : List String} (n : Nat)
    (h : g.isCycleList c = true) : g.isCycleList (c.rotate n) = true := by
  rw [DiGraph.isCycleList] at h ⊢
  simp only [Bool.and_eq_true] at h ⊢
  obtain ⟨hne, hall⟩ := h
  constructor
  · simp only [Bool.not_eq_true', List.isEmpty_eq_false] at hne ⊢
    intro hrot
    rw [← List.length_eq_zero, List.length_rotate, List.length_eq_zero] at hrot
    exact hne hrot
  · rw [wrapPairs_rotate]
    rw [List.all_eq_true] at hall ⊢
    intro p hp
    exact hall p ((List.rotate_perm _ n).mem_iff.mp hp)

theorem exists_weak_min : ∀ (c : List String), c ≠ [] →
    ∃ m, m ∈ c ∧ ∀ y ∈ c, strLt y m = false := by
  intro c
  induction c with
  | nil => intro h; exact absurd rfl h
  | cons x xs ih =>
    intro _
    cases xs with
    | nil =>
      refine ⟨x, List.mem_singleton.mpr rfl, ?_⟩
      intro y hy
      rcases List.mem_singleton.mp hy with rfl
      exact strLt_irrefl y
    | cons z zs =>
      obtain ⟨m, hm, hmin⟩ := ih (by simp)
      by_cases hxm : strLt x m = true
      · refine ⟨x, List.mem_cons_self _ _, ?_⟩
        intro y hy
        rcases List.mem_cons.mp hy with rfl | hy
        · exact strLt_irrefl y
        · by_cases hyx : strLt y x = true
          · exfalso
            rcases strLt_false_cases (hmin y hy) with rfl | hmy
            · rw [strLt_asymm hyx] at hxm
              exact Bool.false_ne_true hxm
            · rw [strLt_asymm (strLt_trans hmy hyx)] at hxm
              exact Bool.false_ne_true hxm
          · revert hyx
            cases strLt y x <;> simp
      · refine ⟨m, List.mem_cons_of_mem x hm, ?_⟩
        intro y hy
        rcases List.mem_cons.mp hy with rfl | hy
        · revert hxm
          cases strLt y m <;> simp
        · exact hmin y hy

theorem cycle_subset_nodes {g : DiGraph} (hwf : g.EdgesClosed) {w : List String}
    (hc : g.isCycleList w = true) : ∀ y ∈ w, y ∈ g.nodes := by
  intro y hy
  rw [DiGraph.isCycleList, Bool.and_eq_true] at hc
  obtain ⟨_, hall⟩ := hc
  rw [List.all_eq_true] at hall
  obtain ⟨i, hi, rfl⟩ := List.mem_iff_getElem.mp hy
  have hiz : i < (DiGraph.wrapPairs w).length := by
    rw [wrapPairs_length]
    exact hi
  have hpmem : (DiGraph.wrapPairs w)[i] ∈ DiGraph.wrapPairs w := List.getElem_mem hiz
  have hedge := hall _ hpmem
  have hfst : ((DiGraph.wrapPairs w)[i]).1 = w[i] := by
    simp only [DiGraph.wrapPairs]
    rw [List.getElem_zip]
  rw [hfst] at hedge
  rw [hasEdge_iff] at hedge
  obtain ⟨e, he, hsrc, _⟩ := hedge
  rw [← hsrc]
  exact (hwf e he).1

theorem exists_canonical_rotation {g : DiGraph} {c : List String}
    (hcyc : g.IsSimpleCycle c) :
    ∃ c', c.IsRotated c' ∧ g.IsSimpleCycle c' ∧ DiGraph.headMin c' = true := by
  obtain ⟨hnd, hcl⟩ := hcyc
  have hne : c ≠ [] := by
    rw [DiGraph.isCycleList, Bool.and_eq_true] at hcl
    intro h
    rw [h] at hcl
    simp at hcl
  obtain ⟨m, hm, hmin⟩ := exists_weak_min c hne
  obtain ⟨l₁, l₂, rfl⟩ := List.append_of_mem hm
  have hrot : (l₁ ++ m :: l₂).rotate l₁.length = m :: (l₂ ++ l₁) := by
    rw [List.rotate_eq_drop_append_take (by simp)]
    rw [List.drop_left, List.take_left, List.cons_append]
  have hm' : m ∉ l₁ ++ l₂ := by
    have := List.nodup_middle.mp hnd
    exact (List.nodup_cons.mp this).1
  refine ⟨m :: (l₂ ++ l₁), ⟨l₁.length, hrot⟩, ⟨?_, ?_⟩, ?_⟩
  · rw [← hrot]
    exact List.nodup_rotate.mpr hnd
  · rw [← hrot]
    exact isCycleList_rotate l₁.length hcl
  · rw [DiGraph.headMin, List.all_eq_true]
    intro y hy
    have hymem : y ∈ l₁ ++ m :: l₂ := by
      rw [List.mem_append] at hy ⊢
      rcases hy with hy | hy
      · exact Or.inr (List.mem_cons_of_mem m hy)
      · exact Or.inl hy
    have hyne : y ≠ m := by
      intro rfl'
      subst rfl'
      rw [List.mem_append] at hy
      rcases hy with hy | hy
      · exact hm' (List.mem_append.mpr (Or.inr hy))
      · exact hm' (List.mem_append.mpr (Or.inl hy))
    rcases strLt_false_cases (hmin y hymem) with h | h
    · exact absurd h hyne
    · exact h

theorem canonical_rotation_unique {c c' : List String} (hnd : c.Nodup)
    (h : c.IsRotated c') (h1 : DiGraph.headMin c = true)
    (h2 : DiGraph.headMin c' = true) : c = c' := by
  cases c with
  | nil => simp [DiGraph.headMin] at h1
  | cons x xs =>
    cases c' with
    | nil => simp [DiGraph.headMin] at h2
    | cons y ys =>
      rw [DiGraph.headMin, List.all_eq_true] at h1 h2
      have hperm := h.perm
      have hxy : x = y := by
        by_cases hxy : x = y
        · exact hxy
        · exfalso
          have hxmem : x ∈ y :: ys := hperm.subset (List.mem_cons_self x xs)
          have hymem : y ∈ x :: xs := hperm.symm.subset (List.mem_cons_self y ys)
          rcases List.mem_cons.mp hxmem with h' | h'
          · exact hxy h'
          · rcases List.mem_cons.mp hymem with h'' | h''
            · exact hxy h''.symm
            · have hfalse := strLt_asymm (h1 y h'')
              have : (false : Bool) = true := by
                rw [← hfalse]
                exact h2 x h'
              exact Bool.false_ne_true this
      subst hxy
      obtain ⟨n, hn⟩ := h
      have hL : (0 : Nat) < (x :: xs).length := by simp
      have hlt : n % (x :: xs).length < (x :: xs).length := Nat.mod_lt _ hL
      have hh := List.head?_rotate hlt
      rw [List.rotate_mod, hn] at hh
      rw [List.head?_cons, List.getElem?_eq_getElem hlt] at hh
      have hval := Option.some.inj hh
      have h0 : (x :: xs)[0] = x := rfl
      have hij : n % (x :: xs).length = 0 :=
        (hnd.getElem_inj_iff).mp (hval.symm.trans h0.symm)
      rw [← List.rotate_mod, hij, List.rotate_zero] at hn
      exact hn

/-- C7: the detector emits exactly one `circular_reference` anomaly per simple
cycle of the graph: the anomaly list is the cycle list mapped through the
anomaly constructor; every enumerated cycle is a simple cycle; every simple
cycle is enumerated in exactly one rotation (so one anomaly per cycle, not one
per rotation); each anomaly has severity `medium`, the cycle as affected
topics, and the cycle sequence with the start repeated as location; with no
simple cycle the detector reports nothing. -/
theorem detect_circular_one_per_cycle (g : DiGraph) (hwf : g.EdgesClosed)
    (hnd : g.nodes.Nodup) :
    Validator.detect_circular_references g
        = g.simple_cycles.map Validator.mkCycleAnomaly
    ∧ (∀ w ∈ g.simple_cycles, g.IsSimpleCycle w)
    ∧ (∀ w, g.IsSimpleCycle w → ∃ w' ∈ g.simple_cycles, w.IsRotated w')
    ∧ (∀ w w', w ∈ g.simple_cycles → w' ∈ g.simple_cycles → w.IsRotated w' → w = w')
    ∧ g.simple_cycles.Nodup
    ∧ (∀ a ∈ Validator.detect_circular_references g,
        ∃ w ∈ g.simple_cycles, a = Validator.mkCycleAnomaly w ∧
          a.type = "circular_reference" ∧ a.severity = "medium" ∧
          a.affected_topics = w ∧
          a.location = String.intercalate " → " (w ++ [w.headD ""]))
    ∧ ((∀ w, ¬ g.IsSimpleCycle w) → Validator.detect_circular_references g = []) := by
  have hsound : ∀ w ∈ g.simple_cycles, g.IsSimpleCycle w ∧ DiGraph.headMin w = true := by
    intro w hw
    rw [DiGraph.simple_cycles, List.mem_filter, Bool.and_eq_true] at hw
    obtain ⟨hwd, hcyc, hmin⟩ := hw
    exact ⟨⟨((mem_distinctLists hnd).mp hwd).1, hcyc⟩, hmin⟩
  have hcomplete : ∀ w, g.IsSimpleCycle w → ∃ w' ∈ g.simple_cycles, w.IsRotated w' := by
    intro w hw
    obtain ⟨w', hrot, hcyc', hmin'⟩ := exists_canonical_rotation hw
    refine ⟨w', ?_, hrot⟩
    rw [DiGraph.simple_cycles, List.mem_filter, Bool.and_eq_true]
    refine ⟨(mem_distinctLists hnd).mpr ⟨hcyc'.1, cycle_subset_nodes hwf hcyc'.2⟩,
      hcyc'.2, hmin'⟩
  refine ⟨rfl, fun w hw => (hsound w hw).1, hcomplete, ?_, ?_, ?_, ?_⟩
  · intro w w' hw hw' hrot
    exact canonical_rotation_unique (hsound w hw).1.1 hrot (hsound w hw).2 (hsound w' hw').2
  · rw [DiGraph.simple_cycles]
    exact (List.nodup_dedup _).filter _
  · intro a ha
    rw [Validator.detect_circular_references, DiGraph.detect_circular_references,
      List.mem_map] at ha
    obtain ⟨w, hw, rfl⟩ := ha
    exact ⟨w, hw, rfl, rfl, rfl, rfl, rfl⟩
  · intro hnone
    have hempty : g.simple_cycles = [] := by
      rw [List.eq_nil_iff_forall_not_mem]
      intro w hw
      exact hnone w (hsound w hw).1
    rw [Validator.detect_circular_references, DiGraph.detect_circular_references, hempty]
    rfl

/-- Witness for C7 at the triangle graph `A → B → C → A` (exactly one anomaly,
affected `{A, B, C}`) and at an acyclic one-topic graph (zero anomalies). -/
theorem detect_circular_one_per_cycle_witness :
    triGraph.EdgesClosed ∧ triGraph.nodes.Nodup ∧
    Validator.detect_circular_references triGraph
        = triGraph.simple_cycles.map Validator.mkCycleAnomaly ∧
    Validator.detect_circular_references triGraph
        = [Validator.mkCycleAnomaly ["A", "B", "C"]] ∧
    (Validator.mkCycleAnomaly ["A", "B", "C"]).affected_topics = ["A", "B", "C"] ∧
    (Validator.mkCycleAnomaly ["A", "B", "C"]).location = "A → B → C → A" ∧
    Validator.detect_circular_references (DiGraph.build_from_topics isolatedTopics) = [] :=
  ⟨by decide, by decide,
    (detect_circular_one_per_cycle triGraph (by decide) (by decide)).1,
    by decide, by decide, by decide, by decide⟩
